import Mathlib

/-!
Verification of the graphql-anywhere query executor (`src/index.ts`).

The executor works on untyped JavaScript values with reference identity and
in-place mutation (the accumulator object of `executeSelectionSet` and the
`merge` helper).  We therefore embed it with an explicit heap: objects and
arrays live at numeric addresses, a `JSVal` is either a primitive or a
reference (`ref a`), and JavaScript strict equality `===` is value equality on
primitives and address equality on references.  Execution threads a state
(heap plus a trace of resolver invocations) and returns `Except`: the source
can throw (`No fragment named ...`, `TypeError` from `Object.keys(null)`), and
recursion through heap values and named fragments is not structurally
decreasing, so every function is indexed by a fuel parameter (running out of
fuel is the error `Err.outOfFuel`; every theorem is stated so that fuel
exhaustion makes no claim hold vacuously or is given enough fuel).

Modelling decisions, recorded once here:
* numbers are `Int` (the executor performs no arithmetic; `NaN`, which is the
  one value for which `x === x` fails, never arises in the embedded code);
* the resolver, result mapper and fragment matcher supplied by the caller are
  pure functions that may read the heap but do not mutate or extend it;
* GraphQL field names and aliases match `[_A-Za-z][_0-9A-Za-z]*`, so a result
  key is never a numeric array index; property access on arrays distinguishes
  canonical numeric indices from other keys, which are kept in a `props` list
  (JavaScript array `length` exotics are never exercised by the executor);
* writing a property on a primitive is a silent no-op (non-strict mode).
-/

namespace GraphQLAnywhere

/-- A JavaScript value: primitives carry their value, objects and arrays are
references into the heap. -/
inductive JSVal where
  | undefined : JSVal
  | null : JSVal
  | bool (b : Bool) : JSVal
  | num (n : Int) : JSVal
  | str (s : String) : JSVal
  | ref (a : Nat) : JSVal
deriving DecidableEq, Repr

/-- A heap cell: a plain object (ordered own properties) or an array
(its elements, plus non-index own properties). -/
inductive HObj where
  | obj (fields : List (String × JSVal)) : HObj
  | arr (elems : List JSVal) (props : List (String × JSVal)) : HObj
deriving DecidableEq, Repr

/-- The heap: cell at address `a` is `objs[a]`; allocation appends. -/
structure Heap where
  objs : List HObj
deriving DecidableEq, Repr

/-- Execution state: the heap and the trace of resolver invocations
(field names, in call order). -/
structure St where
  heap : Heap
  calls : List String
deriving DecidableEq, Repr

/-- JavaScript `x == null` (true exactly for `null` and `undefined`). -/
def isNullish : JSVal → Bool
  | .undefined => true
  | .null => true
  | _ => false

/-- JavaScript truthiness. -/
def truthy : JSVal → Bool
  | .undefined => false
  | .null => false
  | .bool b => b
  | .num n => n != 0
  | .str s => s != ""
  | .ref _ => true

/-- JavaScript strict equality `===`: value equality on primitives,
address identity on references. -/
def jsEq : JSVal → JSVal → Bool
  | .undefined, .undefined => true
  | .null, .null => true
  | .bool a, .bool b => a == b
  | .num a, .num b => a == b
  | .str a, .str b => a == b
  | .ref a, .ref b => a == b
  | _, _ => false

/-- First binding of `k` in an ordered property list. -/
def lookupKV {α : Type} : List (String × α) → String → Option α
  | [], _ => none
  | (k1, v1) :: rest, k => if k1 = k then some v1 else lookupKV rest k

/-- Set key `k` in an ordered property list: overwrite in place if present
(keeping insertion order, as JavaScript objects do), else append. -/
def setKV : List (String × JSVal) → String → JSVal → List (String × JSVal)
  | [], k, v => [(k, v)]
  | (k1, v1) :: rest, k, v =>
    if k1 = k then (k, v) :: rest else (k1, v1) :: setKV rest k v

/-- The canonical in-range numeric index denoted by a property key on an
array of `len` elements, if any ("2" ↦ 2, but not "02"); out-of-range
numeric keys behave like ordinary property keys, which the executor never
exercises (result keys are GraphQL names). -/
def canonIndex (len : Nat) (k : String) : Option Nat :=
  (List.range len).find? fun n => toString n = k

/-- Heap cell at address `a`. -/
def Heap.get (h : Heap) (a : Nat) : Option HObj :=
  h.objs[a]?

/-- Replace the heap cell at address `a`. -/
def Heap.put (h : Heap) (a : Nat) (o : HObj) : Heap :=
  ⟨h.objs.set a o⟩

/-- The own-property binding of key `k` at address `a` (arrays bind their
canonical indices to elements and other keys through `props`). -/
def getBinding (h : Heap) (a : Nat) (k : String) : Option JSVal :=
  match h.get a with
  | some (.obj fields) => lookupKV fields k
  | some (.arr elems props) =>
    match canonIndex elems.length k with
    | some n => elems[n]?
    | none => lookupKV props k
  | none => none

/-- JavaScript property read `v[k]`: `undefined` on primitives and on
missing keys. -/
def getProp (h : Heap) (v : JSVal) (k : String) : JSVal :=
  match v with
  | .ref a => (getBinding h a k).getD .undefined
  | _ => .undefined

/-- JavaScript `v.hasOwnProperty(k)` (false on primitives as boxing yields
no own properties). -/
def hasProp (h : Heap) (v : JSVal) (k : String) : Bool :=
  match v with
  | .ref a => (getBinding h a k).isSome
  | _ => false

/-- JavaScript `Object.keys(v)` for a non-nullish `v`: own enumerable keys of
an object or array, `[]` on primitives. -/
def keysOf (h : Heap) (v : JSVal) : List String :=
  match v with
  | .ref a =>
    match h.get a with
    | some (.obj fields) => fields.map Prod.fst
    | some (.arr elems props) =>
      (List.range elems.length).map toString ++ props.map Prod.fst
    | none => []
  | _ => []

/-- JavaScript property write `v[k] = w`: updates the heap cell behind a
reference, silent no-op on primitives (non-strict mode). -/
def setPropV (st : St) (v : JSVal) (k : String) (w : JSVal) : St :=
  match v with
  | .ref a =>
    match st.heap.get a with
    | some (.obj fields) => { st with heap := st.heap.put a (.obj (setKV fields k w)) }
    | some (.arr elems props) =>
      match canonIndex elems.length k with
      | some n => { st with heap := st.heap.put a (.arr (elems.set n w) props) }
      | none => { st with heap := st.heap.put a (.arr elems (setKV props k w)) }
    | none => st
  | _ => st

/-- Allocate a fresh empty object (the `const result = {}` of
`executeSelectionSet`); returns its address. -/
def allocObj (st : St) : Nat × St :=
  (st.heap.objs.length, { st with heap := ⟨st.heap.objs ++ [.obj []]⟩ })

/-- Allocate a fresh array from its elements (the list built by
`result.map` in `executeSubSelectedArray`); returns its address. -/
def allocArr (st : St) (elems : List JSVal) : Nat × St :=
  (st.heap.objs.length, { st with heap := ⟨st.heap.objs ++ [.arr elems []]⟩ })

/-- Record one resolver invocation in the trace. -/
def recordCall (st : St) (fieldName : String) : St :=
  { st with calls := st.calls ++ [fieldName] }

/-- `Array.isArray(v)`. -/
def isArrayRef (h : Heap) (v : JSVal) : Bool :=
  match v with
  | .ref a =>
    match h.get a with
    | some (.arr _ _) => true
    | _ => false
  | _ => false

/-- The elements of `v` when it is an array reference. -/
def asArray (h : Heap) (v : JSVal) : Option (List JSVal) :=
  match v with
  | .ref a =>
    match h.get a with
    | some (.arr elems _) => some elems
    | _ => none
  | _ => none

/-- An argument value in the query AST: a literal, or a variable reference to
be substituted from the variable bindings. -/
inductive ArgValue where
  | lit (v : JSVal) : ArgValue
  | var (name : String) : ArgValue
deriving Repr

/-- A directive application on a selection (name plus arguments). -/
structure Directive where
  name : String
  args : List (String × ArgValue)
deriving Repr

mutual

/-- A field selection: optional alias, name, arguments, directives and an
optional nested selection set (graphql `Field` node). -/
inductive Field where
  | mk (fieldAlias : Option String) (name : String) (args : List (String × ArgValue))
      (directives : List Directive) (selectionSet : Option (List Selection)) : Field

/-- A selection: field, inline fragment (type condition plus selection set),
or named fragment spread. -/
inductive Selection where
  | field (f : Field) : Selection
  | inlineFragment (typeCondition : String) (directives : List Directive)
      (selectionSet : List Selection) : Selection
  | fragmentSpread (name : String) (directives : List Directive) : Selection

end

/-- The alias of a field. -/
def Field.fieldAlias : Field → Option String
  | .mk a _ _ _ _ => a

/-- The name of a field. -/
def Field.name : Field → String
  | .mk _ n _ _ _ => n

/-- The arguments of a field. -/
def Field.args : Field → List (String × ArgValue)
  | .mk _ _ a _ _ => a

/-- The directives of a field. -/
def Field.directives : Field → List Directive
  | .mk _ _ _ d _ => d

/-- The nested selection set of a field, if any. -/
def Field.selectionSet : Field → Option (List Selection)
  | .mk _ _ _ _ s => s

/-- The directives attached to a selection. -/
def Selection.directives : Selection → List Directive
  | .field f => f.directives
  | .inlineFragment _ d _ => d
  | .fragmentSpread _ d => d

/-- A named fragment definition: name, type condition, selection set. -/
structure FragmentDef where
  name : String
  typeCondition : String
  selectionSet : List Selection

/-- Modelled from the spec: the variable bindings (`VariableMap`,
a name-to-value mapping, immutable for the duration of an execution). -/
def VariableMap : Type := List (String × JSVal)

/-- The info descriptor passed to the resolver (`ExecInfo`). -/
structure ExecInfo where
  isLeaf : Bool
  resultKey : String
deriving DecidableEq, Repr

/-- The caller-supplied resolver: `(fieldName, rootValue, args, context,
info) -> value`.  It may read the heap but is pure: it neither mutates nor
extends it. -/
def Resolver : Type :=
  Heap → String → JSVal → Option (List (String × JSVal)) → JSVal → ExecInfo → JSVal

/-- The optional result mapper: `(values, rootValue) -> any`, reading the
heap, applied to the accumulator object of every selection set. -/
def ResultMapper : Type := Heap → JSVal → JSVal → JSVal

/-- The fragment matcher predicate:
`(rootValue, typeCondition, context) -> boolean`. -/
def FragmentMatcher : Type := JSVal → String → JSVal → Bool

/-- The execution context (`ExecContext`), assembled once per call and shared
through the whole traversal. -/
structure ExecContext where
  fragmentMap : List (String × FragmentDef)
  contextValue : JSVal
  variableValues : VariableMap
  resultMapper : Option ResultMapper
  resolver : Resolver
  fragmentMatcher : FragmentMatcher

/-- Errors of an execution: the `No fragment named ...` throw of
`executeSelectionSet`, a JavaScript `TypeError` (`Object.keys` on a nullish
value), and exhaustion of the fuel index of the embedding. -/
inductive Err where
  | noFragment (name : String) : Err
  | typeError : Err
  | outOfFuel : Err
deriving DecidableEq, Repr

/-- Modelled from the spec: the `"if"` argument of a skip/include directive,
evaluated to a boolean (substituting a variable reference from the variable
bindings), per section 4.1 of the spec (`src/directives.ts` is not under
`src/`). -/
def directiveIfValue (d : Directive) (vars : VariableMap) : Option Bool :=
  match lookupKV d.args "if" with
  | some (.lit (.bool b)) => some b
  | some (.var n) =>
    match lookupKV vars n with
    | some (.bool b) => some b
    | _ => none
  | _ => none

/-- Modelled from the spec: `shouldInclude(selection, variables)` of
`src/directives.ts` (not under `src/`), per section 4.1 of the spec: skip
with true excludes, include with false excludes, any other combination
includes, unrecognized directives are ignored. -/
def shouldInclude (selection : Selection) (vars : VariableMap) : Bool :=
  selection.directives.all fun d =>
    if d.name = "skip" then !(directiveIfValue d vars == some true)
    else if d.name = "include" then !(directiveIfValue d vars == some false)
    else true

/-- Modelled from the spec: `resultKeyNameFromField` of `src/storeUtils.ts`
(not under `src/`): the alias if present, else the field name. -/
def resultKeyNameFromField (f : Field) : String :=
  f.fieldAlias.getD f.name

/-- Modelled from the spec: `argumentsObjectFromField` of `src/storeUtils.ts`
(not under `src/`): the field's arguments with variable references substituted
from the variable bindings, or `none` when the field has no arguments. -/
def argumentsObjectFromField (f : Field) (vars : VariableMap) :
    Option (List (String × JSVal)) :=
  if f.args.isEmpty then none
  else some (f.args.map fun kv =>
    (kv.1, match kv.2 with
           | .lit v => v
           | .var n => (lookupKV vars n).getD .undefined))

/-- The guard of `merge` (lines 292-299 of `src/index.ts`): sources that are
null, undefined, a string, a number, a boolean, or an array take the early
`return src` branch. -/
def isMergeLeaf (h : Heap) (src : JSVal) : Bool :=
  match src with
  | .null => true
  | .undefined => true
  | .str _ => true
  | .num _ => true
  | .bool _ => true
  | .ref a =>
    match h.get a with
    | some (.arr _ _) => true
    | _ => false

/-- The second loop of `merge` (lines 311-316 of `src/index.ts`): for every
key of `src` (snapshot taken after the first loop), if `dest` does not have
it, `dest[srcKey] = src[srcKey]`.  No recursion, so no fuel. -/
def mergeAddLoop (keys : List String) (dest src : JSVal) (st : St) : St :=
  match keys with
  | [] => st
  | srcKey :: rest =>
    let st := if hasProp st.heap dest srcKey then st
              else setPropV st dest srcKey (getProp st.heap src srcKey)
    mergeAddLoop rest dest src st

/-- One fuel level of the mutually recursive executor: each function of
`src/index.ts` (plus the inner loops that the source writes with `forEach`
and `map`) as a field, with the next-lower fuel level's functions available
as `rec` inside `execStep`. -/
structure Core where
  executeSelectionSet :
    List Selection → JSVal → JSVal → ExecContext → St → Except Err (JSVal × St)
  executeSelections :
    List Selection → JSVal → JSVal → ExecContext → Nat → Bool → St →
      Except Err (Bool × St)
  executeField :
    Field → JSVal → JSVal → ExecContext → St → Except Err (JSVal × St)
  executeSubSelectedArray :
    Field → JSVal → JSVal → ExecContext → St → Except Err (JSVal × St)
  executeSubItems :
    Field → List JSVal → Nat → JSVal → ExecContext → Bool → St →
      Except Err (List JSVal × Bool × St)
  merge : JSVal → JSVal → St → Except Err (JSVal × St)
  mergeKeys : List String → JSVal → JSVal → St → Except Err St

/-- Fuel level zero: every call is out of fuel. -/
def coreZero : Core where
  executeSelectionSet := fun _ _ _ _ _ => .error .outOfFuel
  executeSelections := fun _ _ _ _ _ _ _ => .error .outOfFuel
  executeField := fun _ _ _ _ _ => .error .outOfFuel
  executeSubSelectedArray := fun _ _ _ _ _ => .error .outOfFuel
  executeSubItems := fun _ _ _ _ _ _ _ => .error .outOfFuel
  merge := fun _ _ _ => .error .outOfFuel
  mergeKeys := fun _ _ _ _ => .error .outOfFuel

/-- The shared tail of the two fragment arms of `executeSelectionSet`
(lines 168-183 of `src/index.ts`): check the type condition with the fragment
matcher; when it matches, evaluate the fragment's selection set against the
same root value and previous result, record whether its result differs by
identity from `previousResult`, and `merge` it into the accumulator; then
continue with the remaining selections. -/
def fragmentStep (rec : Core) (typeCondition : String) (fragSelections rest : List Selection)
    (rootValue previousResult : JSVal) (execContext : ExecContext)
    (result : Nat) (resultModified : Bool) (st : St) : Except Err (Bool × St) :=
  if execContext.fragmentMatcher rootValue typeCondition execContext.contextValue then
    match rec.executeSelectionSet fragSelections rootValue previousResult execContext st with
    | .error e => .error e
    | .ok (fragmentResult, st) =>
      let resultModified := if !jsEq fragmentResult previousResult then true else resultModified
      match rec.merge (.ref result) fragmentResult st with
      | .error e => .error e
      | .ok (_, st) =>
        rec.executeSelections rest rootValue previousResult execContext result resultModified st
  else
    rec.executeSelections rest rootValue previousResult execContext result resultModified st

/-- One step of the executor: the bodies of `executeSelectionSet` (112-194),
`executeField` (196-247), `executeSubSelectedArray` (249-289) and `merge`
(291-317) of `src/index.ts`, with all recursive calls going through `rec`. -/
def execStep (rec : Core) : Core where
  executeSelectionSet := fun selectionSet rootValue previousResult execContext st =>
    -- line 127: `let resultModified = previousResult == null`
    let resultModified := isNullish previousResult
    -- line 129: `const result = {}`
    let (result, st) := allocObj st
    match rec.executeSelections selectionSet rootValue previousResult execContext
        result resultModified st with
    | .error e => .error e
    | .ok (resultModified, st) =>
      match execContext.resultMapper with
      | some mapper => .ok (mapper st.heap (.ref result) rootValue, st)
      | none => .ok (if resultModified then .ref result else previousResult, st)
  executeSelections := fun selections rootValue previousResult execContext
      result resultModified st =>
    match selections with
    | [] => .ok (resultModified, st)
    | selection :: rest =>
      if !shouldInclude selection execContext.variableValues then
        -- lines 132-135: skip this selection entirely
        rec.executeSelections rest rootValue previousResult execContext
          result resultModified st
      else
        match selection with
        | .field f =>
          match rec.executeField f rootValue previousResult execContext st with
          | .error e => .error e
          | .ok (fieldResult, st) =>
            let resultFieldKey := resultKeyNameFromField f
            -- line 147: `previousResult && fieldResult !== previousResult[key]`
            let resultModified :=
              if truthy previousResult &&
                 !jsEq fieldResult (getProp st.heap previousResult resultFieldKey) then true
              else resultModified
            -- line 151: `if (fieldResult !== undefined) result[key] = fieldResult`
            let st := if jsEq fieldResult .undefined then st
                      else setPropV st (.ref result) resultFieldKey fieldResult
            rec.executeSelections rest rootValue previousResult execContext
              result resultModified st
        | .inlineFragment typeCondition _ fragSelections =>
          fragmentStep rec typeCondition fragSelections rest rootValue previousResult
            execContext result resultModified st
        | .fragmentSpread name _ =>
          match lookupKV execContext.fragmentMap name with
          | none => .error (.noFragment name)   -- line 164
          | some fragment =>
            fragmentStep rec fragment.typeCondition fragment.selectionSet rest
              rootValue previousResult execContext result resultModified st
  executeField := fun field rootValue previousResult execContext st =>
    let fieldName := field.name
    let args := argumentsObjectFromField field execContext.variableValues
    let resultKey := resultKeyNameFromField field
    let info : ExecInfo := ⟨field.selectionSet.isNone, resultKey⟩
    let st := recordCall st fieldName
    let result := execContext.resolver st.heap fieldName rootValue args
      execContext.contextValue info
    match field.selectionSet with
    | none => .ok (result, st)   -- line 220: scalar field, result returned verbatim
    | some selections =>
      if isNullish result then .ok (result, st)   -- line 226
      else if isArrayRef st.heap result then
        rec.executeSubSelectedArray field result
          (if truthy previousResult then getProp st.heap previousResult resultKey else .null)
          execContext st
      else
        rec.executeSelectionSet selections result
          (if truthy previousResult then getProp st.heap previousResult resultKey else .null)
          execContext st
  executeSubSelectedArray := fun field result previousResult execContext st =>
    match asArray st.heap result with
    | none => .error .typeError   -- `result.map` on a non-array: unreachable from executeField
    | some items =>
      -- line 255: `let resultModified = previousResult == null`
      let resultModified := isNullish previousResult
      match rec.executeSubItems field items 0 previousResult execContext resultModified st with
      | .error e => .error e
      | .ok (nextItems, resultModified, st) =>
        let (nextResult, st) := allocArr st nextItems
        .ok (if resultModified then .ref nextResult else previousResult, st)
  executeSubItems := fun field items i previousResult execContext resultModified st =>
    match items with
    | [] => .ok ([], resultModified, st)
    | item :: rest =>
      -- the body of `result.map((item, i) => ...)`, lines 257-286
      let outcome : Except Err (JSVal × Bool × St) :=
        if jsEq item .null then
          .ok (.null, resultModified, st)   -- lines 259-261: null element, no modified check
        else if isArrayRef st.heap item then
          -- lines 264-271: nested array, recurse; no modified check
          match rec.executeSubSelectedArray field item
              (if truthy previousResult then getProp st.heap previousResult (toString i)
               else .null) execContext st with
          | .error e => .error e
          | .ok (nextItem, st) => .ok (nextItem, resultModified, st)
        else
          match field.selectionSet with
          | none => .error .typeError   -- unreachable: executeField only recurses with a selection set
          | some selections =>
            match rec.executeSelectionSet selections item
                (if truthy previousResult then getProp st.heap previousResult (toString i)
                 else .null) execContext st with
            | .error e => .error e
            | .ok (nextItem, st) =>
              -- line 281: `previousResult && nextItem !== previousResult[i]`
              let resultModified :=
                if truthy previousResult &&
                   !jsEq nextItem (getProp st.heap previousResult (toString i)) then true
                else resultModified
              .ok (nextItem, resultModified, st)
      match outcome with
      | .error e => .error e
      | .ok (nextItem, resultModified, st) =>
        match rec.executeSubItems field rest (i + 1) previousResult execContext
            resultModified st with
        | .error e => .error e
        | .ok (nextRest, resultModified, st) => .ok (nextItem :: nextRest, resultModified, st)
  merge := fun dest src st =>
    if isMergeLeaf st.heap src then
      -- lines 292-302: null/undefined/scalar/array sources return without touching dest
      .ok (src, st)
    else if isNullish dest then
      .error .typeError   -- `Object.keys(dest)` throws on null/undefined
    else
      match rec.mergeKeys (keysOf st.heap dest) dest src st with
      | .error e => .error e
      | .ok st =>
        let st := mergeAddLoop (keysOf st.heap src) dest src st
        .ok (.undefined, st)   -- the source `merge` falls off the end: returns undefined
  mergeKeys := fun keys dest src st =>
    -- the first loop of `merge` (lines 305-309): for every key of dest also in
    -- src, recursively merge; the recursive call's return value is discarded
    match keys with
    | [] => .ok st
    | destKey :: rest =>
      if hasProp st.heap src destKey then
        match rec.merge (getProp st.heap dest destKey) (getProp st.heap src destKey) st with
        | .error e => .error e
        | .ok (_, st) => rec.mergeKeys rest dest src st
      else
        rec.mergeKeys rest dest src st

/-- The executor at a given fuel level. -/
def execCore : Nat → Core
  | 0 => coreZero
  | n + 1 => execStep (execCore n)

/-- `executeSelectionSet(selectionSet, rootValue, previousResult, execContext)`
(lines 112-194 of `src/index.ts`). -/
def executeSelectionSet (fuel : Nat) (selectionSet : List Selection)
    (rootValue previousResult : JSVal) (execContext : ExecContext) (st : St) :
    Except Err (JSVal × St) :=
  (execCore fuel).executeSelectionSet selectionSet rootValue previousResult execContext st

/-- The `selectionSet.selections.forEach` loop of `executeSelectionSet`
(lines 131-185): processes the selections in order, threading the mutable
accumulator (heap address `result`) and the `resultModified` flag. -/
def executeSelections (fuel : Nat) (selections : List Selection)
    (rootValue previousResult : JSVal) (execContext : ExecContext)
    (result : Nat) (resultModified : Bool) (st : St) : Except Err (Bool × St) :=
  (execCore fuel).executeSelections selections rootValue previousResult execContext
    result resultModified st

/-- `executeField(field, rootValue, previousResult, execContext)`
(lines 196-247 of `src/index.ts`). -/
def executeField (fuel : Nat) (field : Field) (rootValue previousResult : JSVal)
    (execContext : ExecContext) (st : St) : Except Err (JSVal × St) :=
  (execCore fuel).executeField field rootValue previousResult execContext st

/-- `executeSubSelectedArray(field, result, previousResult, execContext)`
(lines 249-289 of `src/index.ts`). -/
def executeSubSelectedArray (fuel : Nat) (field : Field)
    (result previousResult : JSVal) (execContext : ExecContext) (st : St) :
    Except Err (JSVal × St) :=
  (execCore fuel).executeSubSelectedArray field result previousResult execContext st

/-- The `result.map((item, i) => ...)` loop of `executeSubSelectedArray`
(lines 257-286): processes elements from index `i` on, threading the
`resultModified` flag. -/
def executeSubItems (fuel : Nat) (field : Field) (items : List JSVal) (i : Nat)
    (previousResult : JSVal) (execContext : ExecContext) (resultModified : Bool)
    (st : St) : Except Err (List JSVal × Bool × St) :=
  (execCore fuel).executeSubItems field items i previousResult execContext resultModified st

/-- `merge(dest, src)` (lines 291-317 of `src/index.ts`). -/
def merge (fuel : Nat) (dest src : JSVal) (st : St) : Except Err (JSVal × St) :=
  (execCore fuel).merge dest src st

/-- The first loop of `merge` (lines 305-309): for every key of the snapshot
of `Object.keys(dest)`, if `src` has it, recursively merge (discarding the
returned value). -/
def mergeKeys (fuel : Nat) (keys : List String) (dest src : JSVal) (st : St) :
    Except Err St :=
  (execCore fuel).mergeKeys keys dest src st

/-- Modelled from the spec: a parsed query document (`src/getFromAST.ts` is
not under `src/`): the main operation's selection set plus the fragment
definitions found in the document. -/
structure Document where
  mainSelectionSet : List Selection
  fragments : List FragmentDef

/-- Modelled from the spec: `getMainDefinition` returns the document's single
executable operation; here, its selection set. -/
def getMainDefinition (document : Document) : List Selection :=
  document.mainSelectionSet

/-- Modelled from the spec: `getFragmentDefinitions` collects the fragment
definitions of the document. -/
def getFragmentDefinitions (document : Document) : List FragmentDef :=
  document.fragments

/-- Modelled from the spec: `createFragmentMap` builds the registry mapping
each fragment name to its definition. -/
def createFragmentMap (fragments : List FragmentDef) : List (String × FragmentDef) :=
  fragments.map fun fd => (fd.name, fd)

/-- `ExecOptions` (lines 60-64 of `src/index.ts`). -/
structure ExecOptions where
  resultMapper : Option ResultMapper := none
  fragmentMatcher : Option FragmentMatcher := none
  previousResult : Option JSVal := none

/-- Construction of the execution context by `graphql` (lines 83-102 of
`src/index.ts`); the default fragment matcher matches all fragments
(line 91), and `previousResult` defaults to `null` (line 92). -/
def buildExecContext (resolver : Resolver) (document : Document)
    (contextValue : JSVal) (variableValues : VariableMap)
    (execOptions : ExecOptions) : ExecContext where
  fragmentMap := createFragmentMap (getFragmentDefinitions document)
  contextValue := contextValue
  variableValues := variableValues
  resultMapper := execOptions.resultMapper
  resolver := resolver
  fragmentMatcher := execOptions.fragmentMatcher.getD fun _ _ _ => true

/-- The public entry point `graphql` (lines 75-110 of `src/index.ts`). -/
def graphql (fuel : Nat) (resolver : Resolver) (document : Document)
    (rootValue : JSVal) (contextValue : JSVal) (variableValues : VariableMap)
    (execOptions : ExecOptions) (st : St) : Except Err (JSVal × St) :=
  executeSelectionSet fuel (getMainDefinition document) rootValue
    (execOptions.previousResult.getD .null)
    (buildExecContext resolver document contextValue variableValues execOptions) st

/-- Specification predicate for the identity-preservation claim: one fuel
level of the pair below. `ssMatch` holds of a selection set when, replaying
the execution step by step (same resolver calls, same accumulator writes,
same fragment merges, at the same states), every executed field's returned
value is identical (`===`) to the value at the same result key in
`previousResult`, at this and (through the fragment case) every further
selection-set evaluation that shares this `previousResult`.  It is a
statement of the spec's hypothesis, not part of the executor. -/
structure MatchCore where
  ssMatch : List Selection → JSVal → JSVal → ExecContext → St → Bool
  selsMatch : List Selection → JSVal → JSVal → ExecContext → Nat → St → Bool

/-- The fragment case of `selsMatch`: a matched fragment must itself satisfy
`ssMatch` for the same `previousResult`; the replay then carries out the same
fragment evaluation and merge as the executor to reach the state in which the
remaining selections run. -/
def fragmentMatchStep (rec : MatchCore) (n : Nat) (typeCondition : String)
    (fragSelections rest : List Selection) (rootValue previousResult : JSVal)
    (execContext : ExecContext) (result : Nat) (st : St) : Bool :=
  if execContext.fragmentMatcher rootValue typeCondition execContext.contextValue then
    match executeSelectionSet n fragSelections rootValue previousResult execContext st with
    | .error _ => false
    | .ok (fragmentResult, st1) =>
      rec.ssMatch fragSelections rootValue previousResult execContext st &&
      match merge n (.ref result) fragmentResult st1 with
      | .error _ => false
      | .ok (_, st2) =>
        rec.selsMatch rest rootValue previousResult execContext result st2
  else
    rec.selsMatch rest rootValue previousResult execContext result st

/-- One fuel step of the identity-preservation hypothesis (see `MatchCore`). -/
def matchStep (rec : MatchCore) (n : Nat) : MatchCore where
  ssMatch := fun selectionSet rootValue previousResult execContext st =>
    let (result, st) := allocObj st
    rec.selsMatch selectionSet rootValue previousResult execContext result st
  selsMatch := fun selections rootValue previousResult execContext result st =>
    match selections with
    | [] => true
    | selection :: rest =>
      if !shouldInclude selection execContext.variableValues then
        rec.selsMatch rest rootValue previousResult execContext result st
      else
        match selection with
        | .field f =>
          match executeField n f rootValue previousResult execContext st with
          | .error _ => false
          | .ok (fieldResult, st) =>
            jsEq fieldResult
              (getProp st.heap previousResult (resultKeyNameFromField f)) &&
            (let st := if jsEq fieldResult .undefined then st
                       else setPropV st (.ref result) (resultKeyNameFromField f) fieldResult
             rec.selsMatch rest rootValue previousResult execContext result st)
        | .inlineFragment typeCondition _ fragSelections =>
          fragmentMatchStep rec n typeCondition fragSelections rest rootValue
            previousResult execContext result st
        | .fragmentSpread name _ =>
          match lookupKV execContext.fragmentMap name with
          | none => false
          | some fragment =>
            fragmentMatchStep rec n fragment.typeCondition fragment.selectionSet rest
              rootValue previousResult execContext result st

/-- The identity-preservation hypothesis at a given fuel level. -/
def matchCore : Nat → MatchCore
  | 0 => ⟨fun _ _ _ _ _ => false, fun _ _ _ _ _ _ => false⟩
  | n + 1 => matchStep (matchCore n) n

/-- Every executed field's value is identical to its slice of
`previousResult` during `executeSelectionSet fuel selectionSet ...`
(see `MatchCore`). -/
def ssMatch (fuel : Nat) (selectionSet : List Selection)
    (rootValue previousResult : JSVal) (execContext : ExecContext) (st : St) : Bool :=
  (matchCore fuel).ssMatch selectionSet rootValue previousResult execContext st

/-- Every executed field's value is identical to its slice of
`previousResult` during `executeSelections fuel selections ...`
(see `MatchCore`). -/
def selsMatch (fuel : Nat) (selections : List Selection)
    (rootValue previousResult : JSVal) (execContext : ExecContext)
    (result : Nat) (st : St) : Bool :=
  (matchCore fuel).selsMatch selections rootValue previousResult execContext result st

/-- Strict equality is reflexive on the embedded values (`NaN` is excluded by
the value model). -/
theorem jsEq_refl (v : JSVal) : jsEq v v = true := by
  cases v <;> simp [jsEq]

/-- At fuel zero every executor function is out of fuel. -/
theorem executeSelectionSet_zero (ss : List Selection) (root prev : JSVal)
    (ctx : ExecContext) (st : St) :
    executeSelectionSet 0 ss root prev ctx st = .error .outOfFuel := rfl

/-- Unfolding of `executeSelectionSet` at positive fuel. -/
theorem executeSelectionSet_succ (n : Nat) (ss : List Selection) (root prev : JSVal)
    (ctx : ExecContext) (st : St) :
    executeSelectionSet (n + 1) ss root prev ctx st =
      (match executeSelections n ss root prev ctx (allocObj st).1 (isNullish prev)
          (allocObj st).2 with
       | .error e => .error e
       | .ok (resultModified, st1) =>
         match ctx.resultMapper with
         | some mapper => .ok (mapper st1.heap (.ref (allocObj st).1) root, st1)
         | none => .ok (if resultModified then .ref (allocObj st).1 else prev, st1)) := rfl

/-- At fuel zero the selections loop is out of fuel. -/
theorem executeSelections_zero (sels : List Selection) (root prev : JSVal)
    (ctx : ExecContext) (rA : Nat) (m : Bool) (st : St) :
    executeSelections 0 sels root prev ctx rA m st = .error .outOfFuel := rfl

/-- The selections loop on an empty list returns the accumulated flag. -/
theorem executeSelections_nil (n : Nat) (root prev : JSVal) (ctx : ExecContext)
    (rA : Nat) (m : Bool) (st : St) :
    executeSelections (n + 1) [] root prev ctx rA m st = .ok (m, st) := rfl

/-- Unfolding of the selections loop on a cons at positive fuel. -/
theorem executeSelections_cons (n : Nat) (sel : Selection) (rest : List Selection)
    (root prev : JSVal) (ctx : ExecContext) (rA : Nat) (m : Bool) (st : St) :
    executeSelections (n + 1) (sel :: rest) root prev ctx rA m st =
      (if !shouldInclude sel ctx.variableValues then
        executeSelections n rest root prev ctx rA m st
      else
        match sel with
        | .field f =>
          match executeField n f root prev ctx st with
          | .error e => .error e
          | .ok (fieldResult, st1) =>
            executeSelections n rest root prev ctx rA
              (if truthy prev &&
                  !jsEq fieldResult (getProp st1.heap prev (resultKeyNameFromField f))
               then true else m)
              (if jsEq fieldResult .undefined then st1
               else setPropV st1 (.ref rA) (resultKeyNameFromField f) fieldResult)
        | .inlineFragment tc _ fragSels =>
          fragmentStep (execCore n) tc fragSels rest root prev ctx rA m st
        | .fragmentSpread name _ =>
          match lookupKV ctx.fragmentMap name with
          | none => .error (.noFragment name)
          | some fd =>
            fragmentStep (execCore n) fd.typeCondition fd.selectionSet rest
              root prev ctx rA m st) := rfl

/-- The fragment tail in terms of the named executor functions. -/
theorem fragmentStep_core (n : Nat) (tc : String) (fragSels rest : List Selection)
    (root prev : JSVal) (ctx : ExecContext) (rA : Nat) (m : Bool) (st : St) :
    fragmentStep (execCore n) tc fragSels rest root prev ctx rA m st =
      (if ctx.fragmentMatcher root tc ctx.contextValue then
        match executeSelectionSet n fragSels root prev ctx st with
        | .error e => .error e
        | .ok (fragmentResult, st1) =>
          match merge n (.ref rA) fragmentResult st1 with
          | .error e => .error e
          | .ok (_, st2) =>
            executeSelections n rest root prev ctx rA
              (if !jsEq fragmentResult prev then true else m) st2
      else executeSelections n rest root prev ctx rA m st) := rfl

/-- At fuel zero `executeField` is out of fuel. -/
theorem executeField_zero (f : Field) (root prev : JSVal) (ctx : ExecContext)
    (st : St) : executeField 0 f root prev ctx st = .error .outOfFuel := rfl

/-- Unfolding of `executeField` at positive fuel. -/
theorem executeField_succ (n : Nat) (f : Field) (root prev : JSVal)
    (ctx : ExecContext) (st : St) :
    executeField (n + 1) f root prev ctx st =
      (let result := ctx.resolver st.heap f.name root
         (argumentsObjectFromField f ctx.variableValues) ctx.contextValue
         ⟨f.selectionSet.isNone, resultKeyNameFromField f⟩
       match f.selectionSet with
       | none => .ok (result, recordCall st f.name)
       | some selections =>
         if isNullish result then .ok (result, recordCall st f.name)
         else if isArrayRef st.heap result then
           executeSubSelectedArray n f result
             (if truthy prev then getProp st.heap prev (resultKeyNameFromField f) else .null)
             ctx (recordCall st f.name)
         else
           executeSelectionSet n selections result
             (if truthy prev then getProp st.heap prev (resultKeyNameFromField f) else .null)
             ctx (recordCall st f.name)) := rfl

/-- At fuel zero `executeSubSelectedArray` is out of fuel. -/
theorem executeSubSelectedArray_zero (f : Field) (result prev : JSVal)
    (ctx : ExecContext) (st : St) :
    executeSubSelectedArray 0 f result prev ctx st = .error .outOfFuel := rfl

/-- Unfolding of `executeSubSelectedArray` at positive fuel. -/
theorem executeSubSelectedArray_succ (n : Nat) (f : Field) (result prev : JSVal)
    (ctx : ExecContext) (st : St) :
    executeSubSelectedArray (n + 1) f result prev ctx st =
      (match asArray st.heap result with
       | none => .error .typeError
       | some items =>
         match executeSubItems n f items 0 prev ctx (isNullish prev) st with
         | .error e => .error e
         | .ok (nextItems, resultModified, st1) =>
           .ok (if resultModified then .ref (allocArr st1 nextItems).1 else prev,
                (allocArr st1 nextItems).2)) := rfl

/-- At fuel zero the array-elements loop is out of fuel. -/
theorem executeSubItems_zero (f : Field) (items : List JSVal) (i : Nat)
    (prev : JSVal) (ctx : ExecContext) (m : Bool) (st : St) :
    executeSubItems 0 f items i prev ctx m st = .error .outOfFuel := rfl

/-- The array-elements loop on an empty list. -/
theorem executeSubItems_nil (n : Nat) (f : Field) (i : Nat) (prev : JSVal)
    (ctx : ExecContext) (m : Bool) (st : St) :
    executeSubItems (n + 1) f [] i prev ctx m st = .ok ([], m, st) := rfl

/-- Unfolding of the array-elements loop on a cons at positive fuel. -/
theorem executeSubItems_cons (n : Nat) (f : Field) (item : JSVal)
    (rest : List JSVal) (i : Nat) (prev : JSVal) (ctx : ExecContext) (m : Bool)
    (st : St) :
    executeSubItems (n + 1) f (item :: rest) i prev ctx m st =
      (let outcome : Except Err (JSVal × Bool × St) :=
        if jsEq item .null then .ok (.null, m, st)
        else if isArrayRef st.heap item then
          match executeSubSelectedArray n f item
              (if truthy prev then getProp st.heap prev (toString i) else .null) ctx st with
          | .error e => .error e
          | .ok (nextItem, st1) => .ok (nextItem, m, st1)
        else
          match f.selectionSet with
          | none => .error .typeError
          | some selections =>
            match executeSelectionSet n selections item
                (if truthy prev then getProp st.heap prev (toString i) else .null) ctx st with
            | .error e => .error e
            | .ok (nextItem, st1) =>
              .ok (nextItem,
                   if truthy prev && !jsEq nextItem (getProp st1.heap prev (toString i))
                   then true else m, st1)
       match outcome with
       | .error e => .error e
       | .ok (nextItem, m1, st1) =>
         match executeSubItems n f rest (i + 1) prev ctx m1 st1 with
         | .error e => .error e
         | .ok (nextRest, m2, st2) => .ok (nextItem :: nextRest, m2, st2)) := rfl

/-- At fuel zero `merge` is out of fuel. -/
theorem merge_zero (dest src : JSVal) (st : St) :
    merge 0 dest src st = .error .outOfFuel := rfl

/-- Unfolding of `merge` at positive fuel. -/
theorem merge_succ (n : Nat) (dest src : JSVal) (st : St) :
    merge (n + 1) dest src st =
      (if isMergeLeaf st.heap src then .ok (src, st)
       else if isNullish dest then .error .typeError
       else
         match mergeKeys n (keysOf st.heap dest) dest src st with
         | .error e => .error e
         | .ok st1 => .ok (.undefined, mergeAddLoop (keysOf st1.heap src) dest src st1)) := rfl

/-- At fuel zero the first merge loop is out of fuel. -/
theorem mergeKeys_zero (keys : List String) (dest src : JSVal) (st : St) :
    mergeKeys 0 keys dest src st = .error .outOfFuel := rfl

/-- The first merge loop on an empty key list. -/
theorem mergeKeys_nil (n : Nat) (dest src : JSVal) (st : St) :
    mergeKeys (n + 1) [] dest src st = .ok st := rfl

/-- Unfolding of the first merge loop on a cons at positive fuel. -/
theorem mergeKeys_cons (n : Nat) (destKey : String) (rest : List String)
    (dest src : JSVal) (st : St) :
    mergeKeys (n + 1) (destKey :: rest) dest src st =
      (if hasProp st.heap src destKey then
        match merge n (getProp st.heap dest destKey) (getProp st.heap src destKey) st with
        | .error e => .error e
        | .ok (_, st1) => mergeKeys n rest dest src st1
      else mergeKeys n rest dest src st) := rfl

/-- At fuel zero the identity-preservation hypothesis is false. -/
theorem ssMatch_zero (ss : List Selection) (root prev : JSVal) (ctx : ExecContext)
    (st : St) : ssMatch 0 ss root prev ctx st = false := rfl

/-- Unfolding of `ssMatch` at positive fuel. -/
theorem ssMatch_succ (n : Nat) (ss : List Selection) (root prev : JSVal)
    (ctx : ExecContext) (st : St) :
    ssMatch (n + 1) ss root prev ctx st =
      selsMatch n ss root prev ctx (allocObj st).1 (allocObj st).2 := rfl

/-- At fuel zero the selections-level hypothesis is false. -/
theorem selsMatch_zero (sels : List Selection) (root prev : JSVal)
    (ctx : ExecContext) (rA : Nat) (st : St) :
    selsMatch 0 sels root prev ctx rA st = false := rfl

/-- The selections-level hypothesis on an empty list. -/
theorem selsMatch_nil (n : Nat) (root prev : JSVal) (ctx : ExecContext)
    (rA : Nat) (st : St) : selsMatch (n + 1) [] root prev ctx rA st = true := rfl

/-- Unfolding of the selections-level hypothesis on a cons at positive fuel. -/
theorem selsMatch_cons (n : Nat) (sel : Selection) (rest : List Selection)
    (root prev : JSVal) (ctx : ExecContext) (rA : Nat) (st : St) :
    selsMatch (n + 1) (sel :: rest) root prev ctx rA st =
      (if !shouldInclude sel ctx.variableValues then
        selsMatch n rest root prev ctx rA st
      else
        match sel with
        | .field f =>
          match executeField n f root prev ctx st with
          | .error _ => false
          | .ok (fieldResult, st1) =>
            jsEq fieldResult (getProp st1.heap prev (resultKeyNameFromField f)) &&
            selsMatch n rest root prev ctx rA
              (if jsEq fieldResult .undefined then st1
               else setPropV st1 (.ref rA) (resultKeyNameFromField f) fieldResult)
        | .inlineFragment tc _ fragSels =>
          fragmentMatchStep (matchCore n) n tc fragSels rest root prev ctx rA st
        | .fragmentSpread name _ =>
          match lookupKV ctx.fragmentMap name with
          | none => false
          | some fd =>
            fragmentMatchStep (matchCore n) n fd.typeCondition fd.selectionSet rest
              root prev ctx rA st) := rfl

/-- The fragment case of the hypothesis in terms of the named functions. -/
theorem fragmentMatchStep_core (n : Nat) (tc : String)
    (fragSels rest : List Selection) (root prev : JSVal) (ctx : ExecContext)
    (rA : Nat) (st : St) :
    fragmentMatchStep (matchCore n) n tc fragSels rest root prev ctx rA st =
      (if ctx.fragmentMatcher root tc ctx.contextValue then
        match executeSelectionSet n fragSels root prev ctx st with
        | .error _ => false
        | .ok (fragmentResult, st1) =>
          ssMatch n fragSels root prev ctx st &&
          match merge n (.ref rA) fragmentResult st1 with
          | .error _ => false
          | .ok (_, st2) => selsMatch n rest root prev ctx rA st2
      else selsMatch n rest root prev ctx rA st) := rfl

/-- Main induction for identity preservation: when the hypothesis `ssMatch`
(resp. `selsMatch`) replays to true, `executeSelectionSet` returns
`previousResult` itself, and the selections loop leaves the `resultModified`
flag exactly as it received it. -/
theorem matchMainAux : ∀ n : Nat,
    (∀ (ss : List Selection) (root prev : JSVal) (ctx : ExecContext) (st : St)
        (res : JSVal) (st2 : St),
      isNullish prev = false → ctx.resultMapper = none →
      ssMatch n ss root prev ctx st = true →
      executeSelectionSet n ss root prev ctx st = .ok (res, st2) → res = prev)
    ∧ (∀ (sels : List Selection) (root prev : JSVal) (ctx : ExecContext)
        (rA : Nat) (m : Bool) (st : St) (m2 : Bool) (st2 : St),
      isNullish prev = false → ctx.resultMapper = none →
      selsMatch n sels root prev ctx rA st = true →
      executeSelections n sels root prev ctx rA m st = .ok (m2, st2) → m2 = m) := by
  intro n
  induction n with
  | zero =>
    refine ⟨fun ss root prev ctx st res st2 _ _ hmatch _ => ?_,
            fun sels root prev ctx rA m st m2 st2 _ _ hmatch _ => ?_⟩
    · rw [ssMatch_zero] at hmatch; cases hmatch
    · rw [selsMatch_zero] at hmatch; cases hmatch
  | succ n ih =>
    refine ⟨fun ss root prev ctx st res st2 hprev hmap hmatch hexec => ?_,
            fun sels root prev ctx rA m st m2 st2 hprev hmap hmatch hexec => ?_⟩
    · rw [ssMatch_succ] at hmatch
      rw [executeSelectionSet_succ] at hexec
      cases hsel : executeSelections n ss root prev ctx (allocObj st).1
          (isNullish prev) (allocObj st).2 with
      | error e => rw [hsel] at hexec; simp at hexec
      | ok p =>
        obtain ⟨m1, st1⟩ := p
        have hm1 : m1 = isNullish prev :=
          ih.2 ss root prev ctx (allocObj st).1 (isNullish prev) (allocObj st).2
            m1 st1 hprev hmap hmatch hsel
        rw [hsel, hmap] at hexec
        rw [hm1, hprev] at hexec
        simp only [Bool.false_eq_true, if_false, Except.ok.injEq, Prod.mk.injEq] at hexec
        exact hexec.1.symm
    · cases sels with
      | nil =>
        rw [executeSelections_nil] at hexec
        simp only [Except.ok.injEq, Prod.mk.injEq] at hexec
        exact hexec.1.symm
      | cons sel rest =>
        rw [selsMatch_cons] at hmatch
        rw [executeSelections_cons] at hexec
        cases hinc : shouldInclude sel ctx.variableValues with
        | false =>
          rw [hinc] at hmatch hexec
          simp only [Bool.not_false, if_true] at hmatch hexec
          exact ih.2 rest root prev ctx rA m st m2 st2 hprev hmap hmatch hexec
        | true =>
          rw [hinc] at hmatch hexec
          simp only [Bool.not_true, Bool.false_eq_true, if_false] at hmatch hexec
          cases sel with
          | field f =>
            dsimp only at hmatch hexec
            cases hf : executeField n f root prev ctx st with
            | error e => simp only [hf, Bool.false_eq_true] at hmatch
            | ok p =>
              obtain ⟨v, st1⟩ := p
              simp only [hf, Bool.and_eq_true] at hmatch
              obtain ⟨hjs, hrest⟩ := hmatch
              simp only [hf, hjs, Bool.not_true, Bool.and_false, Bool.false_eq_true,
                if_false] at hexec
              exact ih.2 rest root prev ctx rA m _ m2 st2 hprev hmap hrest hexec
          | inlineFragment tc dirs fragSels =>
            dsimp only at hmatch hexec
            rw [fragmentMatchStep_core] at hmatch
            rw [fragmentStep_core] at hexec
            cases hfm : ctx.fragmentMatcher root tc ctx.contextValue with
            | false =>
              rw [hfm] at hmatch hexec
              simp only [Bool.false_eq_true, if_false] at hmatch hexec
              exact ih.2 rest root prev ctx rA m st m2 st2 hprev hmap hmatch hexec
            | true =>
              rw [hfm] at hmatch hexec
              simp only [if_true] at hmatch hexec
              cases hss : executeSelectionSet n fragSels root prev ctx st with
              | error e => simp only [hss, Bool.false_eq_true] at hmatch
              | ok p =>
                obtain ⟨fr, st1⟩ := p
                simp only [hss, Bool.and_eq_true] at hmatch
                obtain ⟨hinner, hmatch⟩ := hmatch
                have hfr : fr = prev :=
                  ih.1 fragSels root prev ctx st fr st1 hprev hmap hinner hss
                simp only [hss, hfr, jsEq_refl, Bool.not_true, Bool.false_eq_true,
                  if_false] at hexec
                rw [hfr] at hmatch
                cases hmg : merge n (.ref rA) prev st1 with
                | error e => simp only [hmg, Bool.false_eq_true] at hmatch
                | ok q =>
                  obtain ⟨mv, st3⟩ := q
                  simp only [hmg] at hmatch hexec
                  exact ih.2 rest root prev ctx rA m st3 m2 st2 hprev hmap hmatch hexec
          | fragmentSpread name dirs =>
            dsimp only at hmatch hexec
            cases hlk : lookupKV ctx.fragmentMap name with
            | none => simp only [hlk, Bool.false_eq_true] at hmatch
            | some fd =>
              simp only [hlk] at hmatch hexec
              rw [fragmentMatchStep_core] at hmatch
              rw [fragmentStep_core] at hexec
              cases hfm : ctx.fragmentMatcher root fd.typeCondition ctx.contextValue with
              | false =>
                rw [hfm] at hmatch hexec
                simp only [Bool.false_eq_true, if_false] at hmatch hexec
                exact ih.2 rest root prev ctx rA m st m2 st2 hprev hmap hmatch hexec
              | true =>
                rw [hfm] at hmatch hexec
                simp only [if_true] at hmatch hexec
                cases hss : executeSelectionSet n fd.selectionSet root prev ctx st with
                | error e => simp only [hss, Bool.false_eq_true] at hmatch
                | ok p =>
                  obtain ⟨fr, st1⟩ := p
                  simp only [hss, Bool.and_eq_true] at hmatch
                  obtain ⟨hinner, hmatch⟩ := hmatch
                  have hfr : fr = prev :=
                    ih.1 fd.selectionSet root prev ctx st fr st1 hprev hmap hinner hss
                  simp only [hss, hfr, jsEq_refl, Bool.not_true, Bool.false_eq_true,
                    if_false] at hexec
                  rw [hfr] at hmatch
                  cases hmg : merge n (.ref rA) prev st1 with
                  | error e => simp only [hmg, Bool.false_eq_true] at hmatch
                  | ok q =>
                    obtain ⟨mv, st3⟩ := q
                    simp only [hmg] at hmatch hexec
                    exact ih.2 rest root prev ctx rA m st3 m2 st2 hprev hmap hmatch hexec

/-- A resolver for concrete test runs: `(fieldName, root) => root[fieldName]`,
exactly the resolver of the repository's test suite. -/
def testResolver : Resolver := fun h fieldName rootValue _ _ _ =>
  getProp h rootValue fieldName

/-- A concrete execution context with the test resolver, no result mapper,
no fragments, and the default match-everything fragment matcher. -/
def testCtx : ExecContext :=
  ⟨[], .null, [], none, testResolver, fun _ _ _ => true⟩

/-- The query `{ a }`. -/
def qA : List Selection := [.field (.mk none "a" [] [] none)]

/-- Initial state for the C1 witness run: root `{a:1}` at address 0 and
`previousResult = {a:1}` at address 1. -/
def stC1 : St := ⟨⟨[.obj [("a", .num 1)], .obj [("a", .num 1)]]⟩, []⟩

/-- Final state of the C1 witness run (one accumulator allocated, one
resolver call). -/
def stC1Final : St :=
  ⟨⟨[.obj [("a", .num 1)], .obj [("a", .num 1)], .obj [("a", .num 1)]]⟩, ["a"]⟩

/-- C1: for every query, root value, and non-null `previousResult`, if every
executed field's returned value is identical (`===`) to the value at the same
result key in `previousResult` (the replayed hypothesis `ssMatch`), then
`executeSelectionSet` returns `previousResult` itself, the same reference,
not a structural copy.  The theorem is quantified over every selection set,
root value and previous result, so it applies at every nesting level of the
result tree independently (each nested `executeSelectionSet` call is an
instance).  No result mapper is configured, since a mapper replaces the
returned object by design (see C8). -/
theorem executeSelectionSet_identity_preservation
    (fuel : Nat) (selectionSet : List Selection) (rootValue previousResult : JSVal)
    (execContext : ExecContext) (st : St) (res : JSVal) (st2 : St)
    (hprev : isNullish previousResult = false)
    (hmapper : execContext.resultMapper = none)
    (hmatch : ssMatch fuel selectionSet rootValue previousResult execContext st = true)
    (hexec : executeSelectionSet fuel selectionSet rootValue previousResult
      execContext st = .ok (res, st2)) :
    res = previousResult :=
  (matchMainAux fuel).1 selectionSet rootValue previousResult execContext st res st2
    hprev hmapper hmatch hexec

/-- Witness for C1: the query `{ a }` against root `{a:1}` with
`previousResult = {a:1}` satisfies every hypothesis, and the run returns the
reference to `previousResult` itself. -/
theorem executeSelectionSet_identity_preservation_witness :
    isNullish (JSVal.ref 1) = false ∧
    testCtx.resultMapper = none ∧
    ssMatch 3 qA (.ref 0) (.ref 1) testCtx stC1 = true ∧
    executeSelectionSet 3 qA (.ref 0) (.ref 1) testCtx stC1 = .ok (.ref 1, stC1Final) ∧
    (JSVal.ref 1 : JSVal) = .ref 1 :=
  ⟨rfl, rfl, rfl, rfl,
   executeSelectionSet_identity_preservation 3 qA (.ref 0) (.ref 1) testCtx stC1
     (.ref 1) stC1Final rfl rfl rfl rfl⟩

/-- C2: counter-evaluation.  Merging the fragment sub-result `{x: 2}` into an
accumulator `{x: 1}` leaves `x` bound to `1`: the first loop of `merge` calls
`merge(dest["x"], src["x"])`, which takes the scalar early-return branch, and
every call site of `merge` discards the returned value, so — contrary to the
claim and to the source's own comment ("These types just override whatever
was in dest") — the destination's value is never overwritten. -/
theorem merge_scalar_key_not_overwritten :
    merge 3 (.ref 0) (.ref 1) ⟨⟨[.obj [("x", .num 1)], .obj [("x", .num 2)]]⟩, []⟩ =
      .ok (.undefined, ⟨⟨[.obj [("x", .num 1)], .obj [("x", .num 2)]]⟩, []⟩) ∧
    getProp (⟨[.obj [("x", .num 1)], .obj [("x", .num 2)]]⟩ : Heap) (.ref 0) "x" = .num 1 :=
  ⟨rfl, rfl⟩

/-- The field `b { ... }` used by the C3 run (its nested selection set is
never consulted because the only element is null). -/
def c3Field : Field := .mk none "b" [] [] (some [])

/-- Initial state for the C3 run: the freshly resolved list `[null]` at
address 0, a previous element `{c: 1}` at address 1, and the previous list
`[{c: 1}]` at address 2. -/
def stC3 : St := ⟨⟨[.arr [.null] [], .obj [("c", .num 1)], .arr [.ref 1] []]⟩, []⟩

/-- Final state of the C3 run: the newly built list `[null]` was allocated
(address 3) and then discarded in favour of the stale previous list. -/
def stC3Final : St :=
  ⟨⟨[.arr [.null] [], .obj [("c", .num 1)], .arr [.ref 1] [], .arr [.null] []]⟩, []⟩

/-- C3: counter-evaluation.  Evaluating the list `[null]` against the
previous list `[{c: 1}]`: element 0's outcome is `null`, which differs by
identity from `previousList[0]` (the object at address 1), yet the null-element
arm of `executeSubSelectedArray` performs no `changed` check, so `changed`
stays false and the function returns `previousList` itself (address 2) —
a stale result — where the claim's iff requires `changed = true` and the
newly built list. -/
theorem executeSubSelectedArray_null_element_stale :
    executeSubSelectedArray 3 c3Field (.ref 0) (.ref 2) testCtx stC3 =
      .ok (.ref 2, stC3Final) ∧
    jsEq .null (getProp stC3.heap (.ref 2) "0") = false :=
  ⟨rfl, rfl⟩

/-- The query `{ b { c } ... on T { b { d } } }` used by the C4 run. -/
def c4Query : List Selection :=
  [.field (.mk none "b" [] [] (some [.field (.mk none "c" [] [] none)])),
   .inlineFragment "T" []
     [.field (.mk none "b" [] [] (some [.field (.mk none "d" [] [] none)]))]]

/-- Initial state for the C4 run: root `{b: {c: 1, d: 2}}` (addresses 0, 1)
and `previousResult = {b: {c: 1}}` (addresses 2, 3). -/
def stC4 : St :=
  ⟨⟨[.obj [("b", .ref 1)], .obj [("c", .num 1), ("d", .num 2)],
     .obj [("b", .ref 3)], .obj [("c", .num 1)]]⟩, []⟩

/-- Final state of the C4 run: the object at address 3 — `previousResult.b` —
has been mutated in place: it gained the binding `d ↦ 2`. -/
def stC4Final : St :=
  ⟨⟨[.obj [("b", .ref 1)], .obj [("c", .num 1), ("d", .num 2)],
     .obj [("b", .ref 3)], .obj [("c", .num 1), ("d", .num 2)],
     .obj [("b", .ref 3)], .obj [("c", .num 1)],
     .obj [("b", .ref 7)], .obj [("d", .num 2)]]⟩, ["b", "c", "b", "d"]⟩

/-- C4: counter-evaluation.  Running `{ b { c } ... on T { b { d } } }`
against root `{b: {c: 1, d: 2}}` with `previousResult = {b: {c: 1}}`: the
field `b` is unchanged, so the accumulator holds `previousResult.b` itself
(address 3); the fragment's sub-result `{b: {d: 2}}` is then structurally
merged into the accumulator, and the recursive merge adds the key `d` to the
object at address 3 — an object reachable from `previousResult` — so the
engine mutates the caller's `previousResult`, contrary to the claim. -/
theorem executeSelectionSet_mutates_previousResult :
    executeSelectionSet 12 c4Query (.ref 0) (.ref 2) testCtx stC4 =
      .ok (.ref 4, stC4Final) ∧
    getProp stC4.heap (.ref 2) "b" = .ref 3 ∧
    getBinding stC4.heap 3 "d" = none ∧
    getBinding stC4Final.heap 3 "d" = some (.num 2) :=
  ⟨rfl, rfl, rfl, rfl⟩

/-- Helper for C5: a selections list containing a non-excluded named fragment
spread whose name is absent from the registry never evaluates to a result:
reaching the spread throws `noFragment`, and any earlier throw is an error as
well. -/
theorem unknownFragmentAux : ∀ (n : Nat) (sels : List Selection)
    (root prev : JSVal) (ctx : ExecContext) (rA : Nat) (m : Bool) (st : St)
    (name : String) (dirs : List Directive),
    Selection.fragmentSpread name dirs ∈ sels →
    shouldInclude (.fragmentSpread name dirs) ctx.variableValues = true →
    lookupKV ctx.fragmentMap name = none →
    ∃ e, executeSelections n sels root prev ctx rA m st = .error e := by
  intro n
  induction n with
  | zero =>
    intro sels root prev ctx rA m st name dirs _ _ _
    exact ⟨.outOfFuel, executeSelections_zero sels root prev ctx rA m st⟩
  | succ n ih =>
    intro sels root prev ctx rA m st name dirs hmem hinc hlk
    cases sels with
    | nil => cases hmem
    | cons sel rest =>
      rw [executeSelections_cons]
      rcases List.mem_cons.mp hmem with hhead | htail
      · subst hhead
        rw [hinc]
        simp only [Bool.not_true, Bool.false_eq_true, if_false]
        exact ⟨.noFragment name, by rw [hlk]⟩
      · cases hinc2 : shouldInclude sel ctx.variableValues with
        | false =>
          simp only [hinc2, Bool.not_false, if_true]
          exact ih rest root prev ctx rA m st name dirs htail hinc hlk
        | true =>
          simp only [hinc2, Bool.not_true, Bool.false_eq_true, if_false]
          cases sel with
          | field f =>
            dsimp only
            cases hf : executeField n f root prev ctx st with
            | error e => exact ⟨e, rfl⟩
            | ok p =>
              obtain ⟨v, st1⟩ := p
              simp only [hf]
              exact ih rest root prev ctx rA _ _ name dirs htail hinc hlk
          | inlineFragment tc dirs2 fragSels =>
            dsimp only
            rw [fragmentStep_core]
            cases hfm : ctx.fragmentMatcher root tc ctx.contextValue with
            | false =>
              simp only [hfm, Bool.false_eq_true, if_false]
              exact ih rest root prev ctx rA m st name dirs htail hinc hlk
            | true =>
              simp only [hfm, if_true]
              cases hss : executeSelectionSet n fragSels root prev ctx st with
              | error e => exact ⟨e, rfl⟩
              | ok p =>
                obtain ⟨fr, st1⟩ := p
                dsimp only
                cases hmg : merge n (.ref rA) fr st1 with
                | error e => exact ⟨e, rfl⟩
                | ok q =>
                  obtain ⟨mv, st2⟩ := q
                  simp only [hmg]
                  exact ih rest root prev ctx rA _ _ name dirs htail hinc hlk
          | fragmentSpread name2 dirs2 =>
            dsimp only
            cases hlk2 : lookupKV ctx.fragmentMap name2 with
            | none => exact ⟨.noFragment name2, rfl⟩
            | some fd =>
              simp only [hlk2]
              rw [fragmentStep_core]
              cases hfm : ctx.fragmentMatcher root fd.typeCondition ctx.contextValue with
              | false =>
                simp only [hfm, Bool.false_eq_true, if_false]
                exact ih rest root prev ctx rA m st name dirs htail hinc hlk
              | true =>
                simp only [hfm, if_true]
                cases hss : executeSelectionSet n fd.selectionSet root prev ctx st with
                | error e => exact ⟨e, rfl⟩
                | ok p =>
                  obtain ⟨fr, st1⟩ := p
                  dsimp only
                  cases hmg : merge n (.ref rA) fr st1 with
                  | error e => exact ⟨e, rfl⟩
                  | ok q =>
                    obtain ⟨mv, st2⟩ := q
                    simp only [hmg]
                    exact ih rest root prev ctx rA _ _ name dirs htail hinc hlk

/-- C5: for every execution whose selection set contains a named fragment
spread referencing a name absent from the fragment registry, with the spread
not excluded by a directive, the execution raises an error and returns no
result value at all — an `Except.error` carries no partial result — rather
than silently skipping the unknown fragment. -/
theorem executeSelectionSet_unknown_fragment_fatal
    (fuel : Nat) (selectionSet : List Selection) (rootValue previousResult : JSVal)
    (execContext : ExecContext) (st : St) (name : String) (dirs : List Directive)
    (hmem : Selection.fragmentSpread name dirs ∈ selectionSet)
    (hinc : shouldInclude (.fragmentSpread name dirs) execContext.variableValues = true)
    (hlk : lookupKV execContext.fragmentMap name = none) :
    ∃ e, executeSelectionSet fuel selectionSet rootValue previousResult
      execContext st = .error e := by
  cases fuel with
  | zero =>
    exact ⟨.outOfFuel,
      executeSelectionSet_zero selectionSet rootValue previousResult execContext st⟩
  | succ n =>
    rw [executeSelectionSet_succ]
    obtain ⟨e, he⟩ := unknownFragmentAux n selectionSet rootValue previousResult
      execContext (allocObj st).1 (isNullish previousResult) (allocObj st).2
      name dirs hmem hinc hlk
    exact ⟨e, by rw [he]⟩

/-- Witness for C5: the query `{ ...F }` with an empty fragment registry
raises an error. -/
theorem executeSelectionSet_unknown_fragment_fatal_witness :
    shouldInclude (.fragmentSpread "F" []) testCtx.variableValues = true ∧
    lookupKV testCtx.fragmentMap "F" = none ∧
    ∃ e, executeSelectionSet 3 [.fragmentSpread "F" []] (.ref 0) .null testCtx
      stC1 = .error e :=
  ⟨rfl, rfl,
   executeSelectionSet_unknown_fragment_fatal 3 [.fragmentSpread "F" []] (.ref 0)
     .null testCtx stC1 "F" [] (List.mem_cons_self _ _) rfl rfl⟩

/-- C6: a selection excluded by the directive filter is skipped entirely:
processing it before the remaining selections is the same execution as
processing the remaining selections alone — same result object, same
`resultModified` flag, same heap and same resolver-call trace (so no resolver
call is made and no result key is written for it) — and processing only the
excluded selection leaves the state and flag untouched, so its result key is
absent from the result object.  (The fuel index decreases by one per
processed selection; it is an artifact of the embedding, not of the code.) -/
theorem executeSelections_directive_skip
    (fuel : Nat) (sel : Selection) (rest : List Selection) (root prev : JSVal)
    (ctx : ExecContext) (rA : Nat) (m : Bool) (st : St)
    (hskip : shouldInclude sel ctx.variableValues = false) :
    executeSelections (fuel + 1) (sel :: rest) root prev ctx rA m st =
      executeSelections fuel rest root prev ctx rA m st ∧
    executeSelections (fuel + 2) [sel] root prev ctx rA m st = .ok (m, st) := by
  constructor
  · rw [executeSelections_cons, hskip]
    simp only [Bool.not_false, if_true]
  · rw [executeSelections_cons, hskip]
    simp only [Bool.not_false, if_true]
    exact executeSelections_nil fuel root prev ctx rA m st

/-- The selection `a @skip(if: true)`. -/
def skipField : Selection :=
  .field (.mk none "a" [] [⟨"skip", [("if", .lit (.bool true))]⟩] none)

/-- Witness for C6: `a @skip(if: true)` is excluded by the (spec-modelled)
directive filter, skipping it is the same run as not having it, and
processing it alone is a no-op. -/
theorem executeSelections_directive_skip_witness :
    shouldInclude skipField testCtx.variableValues = false ∧
    executeSelections 3 (skipField :: qA) (.ref 0) (.ref 1) testCtx 5 false stC1 =
      executeSelections 2 qA (.ref 0) (.ref 1) testCtx 5 false stC1 ∧
    executeSelections 4 [skipField] (.ref 0) (.ref 1) testCtx 5 false stC1 =
      .ok (false, stC1) :=
  ⟨rfl,
   (executeSelections_directive_skip 2 skipField qA (.ref 0) (.ref 1) testCtx 5
     false stC1 rfl).1,
   (executeSelections_directive_skip 2 skipField qA (.ref 0) (.ref 1) testCtx 5
     false stC1 rfl).2⟩

/-- C7: a fragment (inline or named, the named one found in the registry)
whose type condition the fragment matcher rejects contributes nothing:
processing it before the remaining selections is the same execution as
processing the remaining selections alone (no resolver call, no keys in the
result, no effect on `resultModified`, siblings run normally); and when the
caller supplies no fragment matcher, `graphql` installs the default matcher
that accepts everything. -/
theorem executeSelections_fragment_matcher_rejects
    (fuel : Nat) (tc : String) (dirs : List Directive)
    (fragSels rest : List Selection) (name : String) (fd : FragmentDef)
    (root prev : JSVal) (ctx : ExecContext) (rA : Nat) (m : Bool) (st : St)
    (resolver : Resolver) (document : Document) (cv : JSVal) (vv : VariableMap)
    (opts : ExecOptions) (r c : JSVal) (t : String) :
    (ctx.fragmentMatcher root tc ctx.contextValue = false →
      executeSelections (fuel + 1) (.inlineFragment tc dirs fragSels :: rest)
        root prev ctx rA m st = executeSelections fuel rest root prev ctx rA m st) ∧
    (lookupKV ctx.fragmentMap name = some fd →
     ctx.fragmentMatcher root fd.typeCondition ctx.contextValue = false →
      executeSelections (fuel + 1) (.fragmentSpread name dirs :: rest)
        root prev ctx rA m st = executeSelections fuel rest root prev ctx rA m st) ∧
    (opts.fragmentMatcher = none →
      (buildExecContext resolver document cv vv opts).fragmentMatcher r t c = true) := by
  refine ⟨fun hfm => ?_, fun hlk hfm => ?_, fun hopt => ?_⟩
  · rw [executeSelections_cons]
    cases hinc : shouldInclude (.inlineFragment tc dirs fragSels) ctx.variableValues with
    | false => simp only [Bool.not_false, if_true]
    | true =>
      simp only [Bool.not_true, Bool.false_eq_true, if_false]
      rw [fragmentStep_core, hfm]
      simp only [Bool.false_eq_true, if_false]
  · rw [executeSelections_cons]
    cases hinc : shouldInclude (.fragmentSpread name dirs) ctx.variableValues with
    | false => simp only [Bool.not_false, if_true]
    | true =>
      simp only [Bool.not_true, Bool.false_eq_true, if_false]
      rw [hlk]
      dsimp only
      rw [fragmentStep_core, hfm]
      simp only [Bool.false_eq_true, if_false]
  · simp only [buildExecContext, hopt, Option.getD]

/-- A context whose fragment matcher rejects everything, with one registered
fragment `G` on type `T` selecting `{ a }`. -/
def rejectCtx : ExecContext :=
  ⟨[("G", ⟨"G", "T", qA⟩)], .null, [], none, testResolver, fun _ _ _ => false⟩

/-- Witness for C7: with the rejecting matcher, an inline fragment on `T` and
the spread `...G` each contribute nothing, and `buildExecContext` with no
matcher option accepts every fragment. -/
theorem executeSelections_fragment_matcher_rejects_witness :
    rejectCtx.fragmentMatcher (.ref 0) "T" rejectCtx.contextValue = false ∧
    executeSelections 3 (.inlineFragment "T" [] qA :: qA) (.ref 0) (.ref 1)
      rejectCtx 5 false stC1 =
      executeSelections 2 qA (.ref 0) (.ref 1) rejectCtx 5 false stC1 ∧
    lookupKV rejectCtx.fragmentMap "G" = some ⟨"G", "T", qA⟩ ∧
    executeSelections 3 (.fragmentSpread "G" [] :: qA) (.ref 0) (.ref 1)
      rejectCtx 5 false stC1 =
      executeSelections 2 qA (.ref 0) (.ref 1) rejectCtx 5 false stC1 ∧
    (buildExecContext testResolver ⟨[], []⟩ .null [] {}).fragmentMatcher
      .null "T" .null = true :=
  ⟨rfl,
   (executeSelections_fragment_matcher_rejects 2 "T" [] qA qA "G" ⟨"G", "T", qA⟩
     (.ref 0) (.ref 1) rejectCtx 5 false stC1 testResolver ⟨[], []⟩ .null [] {}
     .null .null "T").1 rfl,
   rfl,
   (executeSelections_fragment_matcher_rejects 2 "T" [] qA qA "G" ⟨"G", "T", qA⟩
     (.ref 0) (.ref 1) rejectCtx 5 false stC1 testResolver ⟨[], []⟩ .null [] {}
     .null .null "T").2.1 rfl rfl,
   (executeSelections_fragment_matcher_rejects 2 "T" [] qA qA "G" ⟨"G", "T", qA⟩
     (.ref 0) (.ref 1) rejectCtx 5 false stC1 testResolver ⟨[], []⟩ .null [] {}
     .null .null "T").2.2 rfl⟩

/-- C8: when a result mapper is configured, every selection-set evaluation
returns exactly the mapper's output applied to the accumulator object (the
object allocated at entry, address `st.heap.objs.length`) and the root value,
unconditionally — in particular the `resultModified`/`previousResult`
reference-preserving return is bypassed.  Quantified over every selection
set, root and previous result, so it holds at every object-result boundary,
not only at the query root. -/
theorem executeSelectionSet_result_mapper_unconditional
    (fuel : Nat) (selectionSet : List Selection) (rootValue previousResult : JSVal)
    (execContext : ExecContext) (st : St) (res : JSVal) (st2 : St)
    (mapper : ResultMapper)
    (hm : execContext.resultMapper = some mapper)
    (hexec : executeSelectionSet fuel selectionSet rootValue previousResult
      execContext st = .ok (res, st2)) :
    res = mapper st2.heap (.ref st.heap.objs.length) rootValue := by
  cases fuel with
  | zero => rw [executeSelectionSet_zero] at hexec; cases hexec
  | succ n =>
    rw [executeSelectionSet_succ] at hexec
    cases hsel : executeSelections n selectionSet rootValue previousResult
        execContext (allocObj st).1 (isNullish previousResult) (allocObj st).2 with
    | error e => rw [hsel] at hexec; simp at hexec
    | ok p =>
      obtain ⟨m1, st1⟩ := p
      rw [hsel, hm] at hexec
      simp only [Except.ok.injEq, Prod.mk.injEq] at hexec
      obtain ⟨h1, h2⟩ := hexec
      rw [← h2]
      exact h1.symm

/-- A context configured with a result mapper that ignores its inputs and
returns `42`. -/
def mapCtx : ExecContext :=
  ⟨[], .null, [], some fun _ _ _ => .num 42, testResolver, fun _ _ _ => true⟩

/-- Witness for C8: even though nothing changed relative to `previousResult`,
the run returns the mapper's output `42`, not `previousResult`. -/
theorem executeSelectionSet_result_mapper_unconditional_witness :
    mapCtx.resultMapper = some (fun _ _ _ => .num 42) ∧
    executeSelectionSet 3 qA (.ref 0) (.ref 1) mapCtx stC1 =
      .ok (.num 42, stC1Final) ∧
    (JSVal.num 42 : JSVal) = (fun (_ : Heap) (_ : JSVal) (_ : JSVal) => JSVal.num 42)
      stC1Final.heap (.ref 2) (.ref 0) :=
  ⟨rfl, rfl,
   executeSelectionSet_result_mapper_unconditional 3 qA (.ref 0) (.ref 1) mapCtx
     stC1 (.num 42) stC1Final (fun _ _ _ => .num 42) rfl rfl⟩

/-- C9: a field with no nested selection set returns the resolver's result
verbatim (scalars, null and undefined pass through, no coercion); a field
with a nested selection set whose resolver result is null or undefined
returns that result unchanged without applying the selection set.  In both
cases the only state change is the recorded resolver call. -/
theorem executeField_leaf_verbatim_and_nullish_passthrough
    (fuel : Nat) (f : Field) (rootValue previousResult : JSVal)
    (ctx : ExecContext) (st : St) :
    (f.selectionSet = none →
      executeField (fuel + 1) f rootValue previousResult ctx st =
        .ok (ctx.resolver st.heap f.name rootValue
               (argumentsObjectFromField f ctx.variableValues) ctx.contextValue
               ⟨true, resultKeyNameFromField f⟩,
             recordCall st f.name)) ∧
    (∀ sels, f.selectionSet = some sels →
      isNullish (ctx.resolver st.heap f.name rootValue
        (argumentsObjectFromField f ctx.variableValues) ctx.contextValue
        ⟨false, resultKeyNameFromField f⟩) = true →
      executeField (fuel + 1) f rootValue previousResult ctx st =
        .ok (ctx.resolver st.heap f.name rootValue
               (argumentsObjectFromField f ctx.variableValues) ctx.contextValue
               ⟨false, resultKeyNameFromField f⟩,
             recordCall st f.name)) := by
  constructor
  · intro h
    rw [executeField_succ, h]
    rfl
  · intro sels h hnul
    rw [executeField_succ, h]
    dsimp only
    simp [hnul]

/-- The field `b` with a nested selection set `{ c }`. -/
def bcField : Field := .mk none "b" [] [] (some [.field (.mk none "c" [] [] none)])

/-- Witness for C9: the leaf field `a` returns the resolver's value `1`
verbatim; the field `b { c }` against a root whose `b` is null returns null
without applying the selection set. -/
theorem executeField_leaf_verbatim_and_nullish_passthrough_witness :
    (Field.mk none "a" [] [] none).selectionSet = none ∧
    executeField 3 (.mk none "a" [] [] none) (.ref 0) (.ref 1) testCtx stC1 =
      .ok (.num 1, recordCall stC1 "a") ∧
    isNullish (testCtx.resolver (⟨[.obj [("b", .null)]]⟩ : Heap) "b" (.ref 0)
      (argumentsObjectFromField bcField testCtx.variableValues)
      testCtx.contextValue ⟨false, "b"⟩) = true ∧
    executeField 3 bcField (.ref 0) .null testCtx ⟨⟨[.obj [("b", .null)]]⟩, []⟩ =
      .ok (.null, recordCall ⟨⟨[.obj [("b", .null)]]⟩, []⟩ "b") :=
  ⟨rfl,
   (executeField_leaf_verbatim_and_nullish_passthrough 2 (.mk none "a" [] [] none)
     (.ref 0) (.ref 1) testCtx stC1).1 rfl,
   rfl,
   (executeField_leaf_verbatim_and_nullish_passthrough 2 bcField (.ref 0) .null
     testCtx ⟨⟨[.obj [("b", .null)]]⟩, []⟩).2
     [.field (.mk none "c" [] [] none)] rfl rfl⟩

/-- Looking up after setting a key: the set key maps to the new value, every
other key is untouched. -/
theorem lookupKV_setKV (l : List (String × JSVal)) (k : String) (v : JSVal)
    (k' : String) :
    lookupKV (setKV l k v) k' = if k = k' then some v else lookupKV l k' := by
  induction l with
  | nil => simp [setKV, lookupKV]
  | cons hd tl ih =>
    obtain ⟨k1, v1⟩ := hd
    by_cases h1 : k1 = k
    · subst h1
      by_cases h2 : k1 = k'
      · subst h2; simp [setKV, lookupKV]
      · simp [setKV, lookupKV, h2]
    · by_cases h2 : k1 = k'
      · subst h2
        have : ¬(k = k1) := fun hh => h1 hh.symm
        simp [setKV, lookupKV, h1, this]
      · simp [setKV, lookupKV, h1, h2, ih]

/-- A found canonical index is in range. -/
theorem canonIndex_some_lt (len : Nat) (k : String) (n : Nat)
    (h : canonIndex len k = some n) : n < len := by
  have hm := List.mem_of_find?_eq_some h
  exact List.mem_range.mp hm

/-- Replacing a cell leaves every other cell unchanged. -/
theorem Heap.get_put_ne (h : Heap) (a b : Nat) (o : HObj) (hne : b ≠ a) :
    (h.put a o).get b = h.get b := by
  unfold Heap.get Heap.put
  exact List.getElem?_set_ne (Ne.symm hne)

/-- Replacing an in-range cell stores the new cell. -/
theorem Heap.get_put_eq (h : Heap) (a : Nat) (o : HObj) (hlt : a < h.objs.length) :
    (h.put a o).get a = some o := by
  unfold Heap.get Heap.put
  exact List.getElem?_set_eq_of_lt o hlt

/-- An inhabited cell is in range. -/
theorem Heap.get_some_lt (h : Heap) (a : Nat) (o : HObj) (hg : h.get a = some o) :
    a < h.objs.length := by
  by_contra hc
  rw [show h.get a = h.objs[a]? from rfl,
    List.getElem?_eq_none (Nat.le_of_not_lt hc)] at hg
  cases hg

/-- Bindings only depend on the cell at the address. -/
theorem getBinding_ext (h1 h2 : Heap) (a : Nat) (hg : h1.get a = h2.get a)
    (k : String) : getBinding h1 a k = getBinding h2 a k := by
  simp only [getBinding, hg]

/-- An address carrying a binding is in range. -/
theorem getBinding_some_lt (h : Heap) (a : Nat) (k : String) (w : JSVal)
    (hb : getBinding h a k = some w) : a < h.objs.length := by
  cases hg : h.get a with
  | none => simp [getBinding, hg] at hb
  | some o => exact Heap.get_some_lt h a o hg

/-- All existing property bindings survive from `h1` to `h2`.  This is the
frame the executor guarantees for every object that exists before a call:
keys may be added (by `merge`), but no existing binding is removed or
changed. -/
def HeapPres (h1 h2 : Heap) : Prop :=
  ∀ a k w, getBinding h1 a k = some w → getBinding h2 a k = some w

/-- All existing bindings at addresses other than `rA` survive (the
selections loop owns the accumulator at `rA` and may overwrite it). -/
def HeapPresExc (rA : Nat) (h1 h2 : Heap) : Prop :=
  ∀ a k w, a ≠ rA → getBinding h1 a k = some w → getBinding h2 a k = some w

/-- Preservation is reflexive. -/
theorem HeapPres.refl (h : Heap) : HeapPres h h := fun _ _ _ hb => hb

/-- Preservation composes. -/
theorem HeapPres.compPres {h1 h2 h3 : Heap} (p : HeapPres h1 h2) (q : HeapPres h2 h3) :
    HeapPres h1 h3 := fun a k w hb => q a k w (p a k w hb)

/-- Full preservation gives preservation away from any accumulator. -/
theorem HeapPres.toExc {h1 h2 : Heap} (rA : Nat) (p : HeapPres h1 h2) :
    HeapPresExc rA h1 h2 := fun a k w _ hb => p a k w hb

/-- Preservation away from the accumulator composes. -/
theorem HeapPresExc.compExc {rA : Nat} {h1 h2 h3 : Heap} (p : HeapPresExc rA h1 h2)
    (q : HeapPresExc rA h2 h3) : HeapPresExc rA h1 h3 :=
  fun a k w hne hb => q a k w hne (p a k w hne hb)

/-- Full preservation followed by accumulator-excepted preservation. -/
theorem HeapPres.transExc {rA : Nat} {h1 h2 h3 : Heap} (p : HeapPres h1 h2)
    (q : HeapPresExc rA h2 h3) : HeapPresExc rA h1 h3 :=
  fun a k w hne hb => q a k w hne (p a k w hb)

/-- Accumulator-excepted preservation followed by full preservation. -/
theorem HeapPresExc.transPres {rA : Nat} {h1 h2 h3 : Heap} (p : HeapPresExc rA h1 h2)
    (q : HeapPres h2 h3) : HeapPresExc rA h1 h3 :=
  fun a k w hne hb => q a k w (p a k w hne hb)

/-- Allocating the accumulator object preserves all existing bindings. -/
theorem allocObj_pres (st : St) : HeapPres st.heap (allocObj st).2.heap := by
  intro a k w hb
  have hlt := getBinding_some_lt st.heap a k w hb
  have hg : (allocObj st).2.heap.get a = st.heap.get a := by
    show (st.heap.objs ++ [HObj.obj []])[a]? = st.heap.objs[a]?
    rw [List.getElem?_append]; simp [hlt]
  rw [getBinding_ext _ _ _ hg]; exact hb

/-- Allocating the result array preserves all existing bindings. -/
theorem allocArr_pres (st : St) (elems : List JSVal) :
    HeapPres st.heap (allocArr st elems).2.heap := by
  intro a k w hb
  have hlt := getBinding_some_lt st.heap a k w hb
  have hg : (allocArr st elems).2.heap.get a = st.heap.get a := by
    show (st.heap.objs ++ [HObj.arr elems []])[a]? = st.heap.objs[a]?
    rw [List.getElem?_append]; simp [hlt]
  rw [getBinding_ext _ _ _ hg]; exact hb

/-- A property write behind reference `b` leaves every other cell unchanged. -/
theorem setPropV_get_ne (st : St) (b : Nat) (k : String) (w : JSVal) (a : Nat)
    (hne : a ≠ b) : (setPropV st (.ref b) k w).heap.get a = st.heap.get a := by
  cases hg : st.heap.get b with
  | none => simp [setPropV, hg]
  | some o =>
    cases o with
    | obj fields => simp [setPropV, hg, Heap.get_put_ne _ _ _ _ hne]
    | arr elems props =>
      cases hci : canonIndex elems.length k with
      | none => simp [setPropV, hg, hci, Heap.get_put_ne _ _ _ _ hne]
      | some n => simp [setPropV, hg, hci, Heap.get_put_ne _ _ _ _ hne]

/-- A property write behind reference `b` preserves bindings elsewhere. -/
theorem setPropV_binding_ne (st : St) (b : Nat) (k : String) (w : JSVal)
    (a : Nat) (k' : String) (hne : a ≠ b) :
    getBinding (setPropV st (.ref b) k w).heap a k' = getBinding st.heap a k' :=
  getBinding_ext _ _ _ (setPropV_get_ne st b k w a hne) k'

/-- A guarded property write (JavaScript `if (!dest.hasOwnProperty(k))
dest[k] = w`, the only write `merge` performs) preserves every existing
binding: it can only add a key that had no binding. -/
theorem setPropV_pres_not_has (st : St) (dest : JSVal) (k : String) (w : JSVal)
    (hnh : hasProp st.heap dest k = false) :
    HeapPres st.heap (setPropV st dest k w).heap := by
  intro a k' x hb
  cases dest with
  | undefined => exact hb
  | null => exact hb
  | bool b => exact hb
  | num n => exact hb
  | str s => exact hb
  | ref b =>
    by_cases hab : a = b
    · subst hab
      cases hg : st.heap.get a with
      | none => simpa [setPropV, hg] using hb
      | some o =>
        have hlt := Heap.get_some_lt st.heap a o hg
        cases o with
        | obj fields =>
          have hlk : lookupKV fields k = none := by
            simp only [hasProp, getBinding, hg] at hnh
            cases hl : lookupKV fields k with
            | none => rfl
            | some y => rw [hl] at hnh; cases hnh
          have hb' : lookupKV fields k' = some x := by
            simpa [getBinding, hg] using hb
          have hkk : ¬(k = k') := fun hh => by
            rw [hh, hb'] at hlk; cases hlk
          simp [getBinding, setPropV, hg, Heap.get_put_eq _ _ _ hlt,
            lookupKV_setKV, hkk, hb']
        | arr elems props =>
          cases hci : canonIndex elems.length k with
          | some n =>
            have hn := canonIndex_some_lt elems.length k n hci
            have : hasProp st.heap (.ref a) k = true := by
              simp only [hasProp, getBinding, hg, hci]
              rw [List.getElem?_eq_getElem hn]
              rfl
            rw [this] at hnh; cases hnh
          | none =>
            have hlk : lookupKV props k = none := by
              simp only [hasProp, getBinding, hg, hci] at hnh
              cases hl : lookupKV props k with
              | none => rfl
              | some y => rw [hl] at hnh; cases hnh
            cases hci' : canonIndex elems.length k' with
            | some n' =>
              have hb' : elems[n']? = some x := by
                simpa [getBinding, hg, hci'] using hb
              simp [getBinding, setPropV, hg, hci,
                Heap.get_put_eq _ _ _ hlt, hci', hb']
            | none =>
              have hb' : lookupKV props k' = some x := by
                simpa [getBinding, hg, hci'] using hb
              have hkk : ¬(k = k') := fun hh => by
                rw [hh, hb'] at hlk; cases hlk
              simp [getBinding, setPropV, hg, hci,
                Heap.get_put_eq _ _ _ hlt, hci', lookupKV_setKV, hkk, hb']
    · rw [setPropV_binding_ne st b k w a k' hab]; exact hb

/-- The add-keys loop of `merge` preserves every existing binding. -/
theorem mergeAddLoop_pres : ∀ (keys : List String) (dest src : JSVal) (st : St),
    HeapPres st.heap (mergeAddLoop keys dest src st).heap := by
  intro keys
  induction keys with
  | nil => intro dest src st; exact HeapPres.refl st.heap
  | cons key rest ih =>
    intro dest src st
    cases hh : hasProp st.heap dest key with
    | true =>
      have : mergeAddLoop (key :: rest) dest src st = mergeAddLoop rest dest src st := by
        simp [mergeAddLoop, hh]
      rw [this]; exact ih dest src st
    | false =>
      have : mergeAddLoop (key :: rest) dest src st =
          mergeAddLoop rest dest src
            (setPropV st dest key (getProp st.heap src key)) := by
        simp [mergeAddLoop, hh]
      rw [this]
      exact (setPropV_pres_not_has st dest key _ hh).compPres (ih dest src _)

/-- Frame induction: every executor function preserves every existing
property binding of every object in the heap — except that the selections
loop may rewrite the accumulator cell it owns (`rA`).  Keys can be added by
`merge`, but no existing binding is removed or changed. -/
theorem invAux : ∀ n : Nat,
    (∀ ss root prev ctx st v st2,
      executeSelectionSet n ss root prev ctx st = .ok (v, st2) →
      HeapPres st.heap st2.heap)
    ∧ (∀ sels root prev ctx rA m st m2 st2,
      executeSelections n sels root prev ctx rA m st = .ok (m2, st2) →
      HeapPresExc rA st.heap st2.heap)
    ∧ (∀ f root prev ctx st v st2,
      executeField n f root prev ctx st = .ok (v, st2) →
      HeapPres st.heap st2.heap)
    ∧ (∀ f res prev ctx st v st2,
      executeSubSelectedArray n f res prev ctx st = .ok (v, st2) →
      HeapPres st.heap st2.heap)
    ∧ (∀ f items i prev ctx m st l m2 st2,
      executeSubItems n f items i prev ctx m st = .ok (l, m2, st2) →
      HeapPres st.heap st2.heap)
    ∧ (∀ dest src st v st2,
      merge n dest src st = .ok (v, st2) → HeapPres st.heap st2.heap)
    ∧ (∀ keys dest src st st2,
      mergeKeys n keys dest src st = .ok st2 → HeapPres st.heap st2.heap) := by
  intro n
  induction n with
  | zero =>
    refine ⟨fun ss root prev ctx st v st2 h => ?_,
            fun sels root prev ctx rA m st m2 st2 h => ?_,
            fun f root prev ctx st v st2 h => ?_,
            fun f res prev ctx st v st2 h => ?_,
            fun f items i prev ctx m st l m2 st2 h => ?_,
            fun dest src st v st2 h => ?_,
            fun keys dest src st st2 h => ?_⟩
    · rw [executeSelectionSet_zero] at h; cases h
    · rw [executeSelections_zero] at h; cases h
    · rw [executeField_zero] at h; cases h
    · rw [executeSubSelectedArray_zero] at h; cases h
    · rw [executeSubItems_zero] at h; cases h
    · rw [merge_zero] at h; cases h
    · rw [mergeKeys_zero] at h; cases h
  | succ n ih =>
    obtain ⟨ihSS, ihSel, ihF, ihArr, ihIt, ihM, ihMK⟩ := ih
    refine ⟨fun ss root prev ctx st v st2 h => ?_,
            fun sels root prev ctx rA m st m2 st2 h => ?_,
            fun f root prev ctx st v st2 h => ?_,
            fun f res prev ctx st v st2 h => ?_,
            fun f items i prev ctx m st l m2 st2 h => ?_,
            fun dest src st v st2 h => ?_,
            fun keys dest src st st2 h => ?_⟩
    · -- executeSelectionSet
      rw [executeSelectionSet_succ] at h
      cases hsel : executeSelections n ss root prev ctx (allocObj st).1
          (isNullish prev) (allocObj st).2 with
      | error e => rw [hsel] at h; simp at h
      | ok p =>
        obtain ⟨m1, st1⟩ := p
        rw [hsel] at h
        have hexc : HeapPresExc (allocObj st).1 (allocObj st).2.heap st1.heap :=
          ihSel ss root prev ctx (allocObj st).1 (isNullish prev) (allocObj st).2
            m1 st1 hsel
        have hcomb : HeapPres st.heap st1.heap := by
          intro a k w hb
          have hlt := getBinding_some_lt st.heap a k w hb
          have hne : a ≠ (allocObj st).1 := by
            intro hh
            rw [hh] at hlt
            exact Nat.lt_irrefl _ hlt
          exact hexc a k w hne (allocObj_pres st a k w hb)
        cases hm : ctx.resultMapper with
        | some mapper =>
          rw [hm] at h
          simp only [Except.ok.injEq, Prod.mk.injEq] at h
          rw [← h.2]; exact hcomb
        | none =>
          rw [hm] at h
          simp only [Except.ok.injEq, Prod.mk.injEq] at h
          rw [← h.2]; exact hcomb
    · -- executeSelections
      cases sels with
      | nil =>
        rw [executeSelections_nil] at h
        simp only [Except.ok.injEq, Prod.mk.injEq] at h
        rw [← h.2]; exact fun a k w _ hb => hb
      | cons sel rest =>
        rw [executeSelections_cons] at h
        cases hinc : shouldInclude sel ctx.variableValues with
        | false =>
          simp only [hinc, Bool.not_false, if_true] at h
          exact ihSel rest root prev ctx rA m st m2 st2 h
        | true =>
          simp only [hinc, Bool.not_true, Bool.false_eq_true, if_false] at h
          cases sel with
          | field f =>
            dsimp only at h
            cases hf : executeField n f root prev ctx st with
            | error e => rw [hf] at h; simp at h
            | ok p =>
              obtain ⟨fv, st1⟩ := p
              simp only [hf] at h
              have h1 : HeapPres st.heap st1.heap :=
                ihF f root prev ctx st fv st1 hf
              have h2 : HeapPresExc rA st1.heap
                  (if jsEq fv .undefined = true then st1
                   else setPropV st1 (.ref rA) (resultKeyNameFromField f) fv).heap := by
                by_cases hje : jsEq fv .undefined = true
                · rw [if_pos hje]; exact fun a k w _ hb => hb
                · rw [if_neg hje]
                  intro a k w hne hb
                  rw [setPropV_binding_ne st1 rA _ _ a k hne]
                  exact hb
              exact h1.transExc (h2.compExc (ihSel rest root prev ctx rA _ _ m2 st2 h))
          | inlineFragment tc dirs fragSels =>
            dsimp only at h
            rw [fragmentStep_core] at h
            cases hfm : ctx.fragmentMatcher root tc ctx.contextValue with
            | false =>
              simp only [hfm, Bool.false_eq_true, if_false] at h
              exact ihSel rest root prev ctx rA m st m2 st2 h
            | true =>
              simp only [hfm, if_true] at h
              cases hss : executeSelectionSet n fragSels root prev ctx st with
              | error e => rw [hss] at h; simp at h
              | ok p =>
                obtain ⟨fr, st1⟩ := p
                simp only [hss] at h
                cases hmg : merge n (.ref rA) fr st1 with
                | error e => rw [hmg] at h; simp at h
                | ok q =>
                  obtain ⟨mv, st3⟩ := q
                  simp only [hmg] at h
                  exact (ihSS fragSels root prev ctx st fr st1 hss).transExc
                    (((ihM (.ref rA) fr st1 mv st3 hmg).toExc rA).compExc
                      (ihSel rest root prev ctx rA _ _ m2 st2 h))
          | fragmentSpread name dirs =>
            dsimp only at h
            cases hlk : lookupKV ctx.fragmentMap name with
            | none => rw [hlk] at h; simp at h
            | some fd =>
              simp only [hlk] at h
              rw [fragmentStep_core] at h
              cases hfm : ctx.fragmentMatcher root fd.typeCondition ctx.contextValue with
              | false =>
                simp only [hfm, Bool.false_eq_true, if_false] at h
                exact ihSel rest root prev ctx rA m st m2 st2 h
              | true =>
                simp only [hfm, if_true] at h
                cases hss : executeSelectionSet n fd.selectionSet root prev ctx st with
                | error e => rw [hss] at h; simp at h
                | ok p =>
                  obtain ⟨fr, st1⟩ := p
                  simp only [hss] at h
                  cases hmg : merge n (.ref rA) fr st1 with
                  | error e => rw [hmg] at h; simp at h
                  | ok q =>
                    obtain ⟨mv, st3⟩ := q
                    simp only [hmg] at h
                    exact (ihSS fd.selectionSet root prev ctx st fr st1 hss).transExc
                      (((ihM (.ref rA) fr st1 mv st3 hmg).toExc rA).compExc
                        (ihSel rest root prev ctx rA _ _ m2 st2 h))
    · -- executeField
      rw [executeField_succ] at h
      cases hfs : f.selectionSet with
      | none =>
        simp only [hfs] at h
        simp only [Except.ok.injEq, Prod.mk.injEq] at h
        rw [← h.2]
        exact HeapPres.refl st.heap
      | some sels =>
        simp only [hfs, Option.isNone_some] at h
        split at h
        · simp only [Except.ok.injEq, Prod.mk.injEq] at h
          rw [← h.2]
          exact HeapPres.refl st.heap
        · split at h
          · exact ihArr f _ _ ctx (recordCall st f.name) v st2 h
          · exact ihSS sels _ _ ctx (recordCall st f.name) v st2 h
    · -- executeSubSelectedArray
      rw [executeSubSelectedArray_succ] at h
      cases has : asArray st.heap res with
      | none => rw [has] at h; simp at h
      | some items =>
        simp only [has] at h
        cases hit : executeSubItems n f items 0 prev ctx (isNullish prev) st with
        | error e => rw [hit] at h; simp at h
        | ok p =>
          obtain ⟨l, mi, st1⟩ := p
          simp only [hit, Except.ok.injEq, Prod.mk.injEq] at h
          rw [← h.2]
          exact (ihIt f items 0 prev ctx (isNullish prev) st l mi st1 hit).compPres
            (allocArr_pres st1 l)
    · -- executeSubItems
      cases items with
      | nil =>
        rw [executeSubItems_nil] at h
        simp only [Except.ok.injEq, Prod.mk.injEq] at h
        rw [← h.2.2]
        exact HeapPres.refl st.heap
      | cons item rest =>
        rw [executeSubItems_cons] at h
        dsimp only at h
        cases hnull : jsEq item .null with
        | true =>
          simp only [hnull, if_true] at h
          cases hrest : executeSubItems n f rest (i + 1) prev ctx m st with
          | error e => rw [hrest] at h; simp at h
          | ok p =>
            obtain ⟨nr, mr, st3⟩ := p
            simp only [hrest, Except.ok.injEq, Prod.mk.injEq] at h
            rw [← h.2.2]
            exact ihIt f rest (i + 1) prev ctx m st nr mr st3 hrest
        | false =>
          simp only [hnull, Bool.false_eq_true, if_false] at h
          cases harr : isArrayRef st.heap item with
          | true =>
            simp only [harr, if_true] at h
            cases hsub : executeSubSelectedArray n f item
                (if truthy prev = true then getProp st.heap prev (toString i)
                 else .null) ctx st with
            | error e => rw [hsub] at h; simp at h
            | ok p =>
              obtain ⟨ni, st1⟩ := p
              simp only [hsub] at h
              cases hrest : executeSubItems n f rest (i + 1) prev ctx m st1 with
              | error e => rw [hrest] at h; simp at h
              | ok q =>
                obtain ⟨nr, mr, st3⟩ := q
                simp only [hrest, Except.ok.injEq, Prod.mk.injEq] at h
                rw [← h.2.2]
                exact (ihArr f item _ ctx st ni st1 hsub).compPres
                  (ihIt f rest (i + 1) prev ctx m st1 nr mr st3 hrest)
          | false =>
            simp only [harr, Bool.false_eq_true, if_false] at h
            cases hfs : f.selectionSet with
            | none => rw [hfs] at h; simp at h
            | some sels =>
              simp only [hfs] at h
              cases hss : executeSelectionSet n sels item
                  (if truthy prev = true then getProp st.heap prev (toString i)
                   else .null) ctx st with
              | error e => rw [hss] at h; simp at h
              | ok p =>
                obtain ⟨ni, st1⟩ := p
                simp only [hss] at h
                cases hrest : executeSubItems n f rest (i + 1) prev ctx _ st1 with
                | error e => rw [hrest] at h; simp at h
                | ok q =>
                  obtain ⟨nr, mr, st3⟩ := q
                  simp only [hrest, Except.ok.injEq, Prod.mk.injEq] at h
                  rw [← h.2.2]
                  exact (ihSS sels item _ ctx st ni st1 hss).compPres
                    (ihIt f rest (i + 1) prev ctx _ st1 nr mr st3 hrest)
    · -- merge
      rw [merge_succ] at h
      cases hml : isMergeLeaf st.heap src with
      | true =>
        simp only [hml, if_true, Except.ok.injEq, Prod.mk.injEq] at h
        rw [← h.2]
        exact HeapPres.refl st.heap
      | false =>
        simp only [hml, Bool.false_eq_true, if_false] at h
        cases hnd : isNullish dest with
        | true => rw [hnd] at h; simp at h
        | false =>
          simp only [hnd, Bool.false_eq_true, if_false] at h
          cases hmk : mergeKeys n (keysOf st.heap dest) dest src st with
          | error e => rw [hmk] at h; simp at h
          | ok st1 =>
            simp only [hmk, Except.ok.injEq, Prod.mk.injEq] at h
            rw [← h.2]
            exact (ihMK (keysOf st.heap dest) dest src st st1 hmk).compPres
              (mergeAddLoop_pres (keysOf st1.heap src) dest src st1)
    · -- mergeKeys
      cases keys with
      | nil =>
        rw [mergeKeys_nil] at h
        simp only [Except.ok.injEq] at h
        rw [← h]
        exact HeapPres.refl st.heap
      | cons key rest =>
        rw [mergeKeys_cons] at h
        cases hh : hasProp st.heap src key with
        | false =>
          simp only [hh, Bool.false_eq_true, if_false] at h
          exact ihMK rest dest src st st2 h
        | true =>
          simp only [hh, if_true] at h
          cases hmg : merge n (getProp st.heap dest key) (getProp st.heap src key) st with
          | error e => rw [hmg] at h; simp at h
          | ok q =>
            obtain ⟨mv, st1⟩ := q
            simp only [hmg] at h
            exact (ihM _ _ st mv st1 hmg).compPres (ihMK rest dest src st1 st2 h)

/-- C10: when a selection-set evaluation returns `previousResult` by identity
(`res = previousResult`, a heap reference), the returned object is not pruned
to the query's shape: every property binding that `previousResult` had before
the run is still present, with the same value, in the returned result — in
particular every key that is not the result key of any selection of the
current query (the theorem is proved for all keys, which subsumes the
claim's unselected ones). -/
theorem executeSelectionSet_no_pruning
    (fuel : Nat) (selectionSet : List Selection) (rootValue previousResult : JSVal)
    (execContext : ExecContext) (st : St) (res : JSVal) (st2 : St)
    (a : Nat) (k : String) (w : JSVal)
    (hexec : executeSelectionSet fuel selectionSet rootValue previousResult
      execContext st = .ok (res, st2))
    (hres : res = previousResult) (hprev : previousResult = .ref a)
    (hbind : getBinding st.heap a k = some w) :
    getProp st2.heap res k = w := by
  have hp := (invAux fuel).1 selectionSet rootValue previousResult execContext
    st res st2 hexec
  have hb2 := hp a k w hbind
  rw [hres, hprev]
  simp [getProp, hb2]

/-- Initial state for the C10 witness: root `{a: 1}` and
`previousResult = {a: 1, extra: true}` — the key `extra` is not selected by
the query `{ a }`. -/
def stC10 : St :=
  ⟨⟨[.obj [("a", .num 1)], .obj [("a", .num 1), ("extra", .bool true)]]⟩, []⟩

/-- Final state of the C10 witness run. -/
def stC10Final : St :=
  ⟨⟨[.obj [("a", .num 1)], .obj [("a", .num 1), ("extra", .bool true)],
     .obj [("a", .num 1)]]⟩, ["a"]⟩

/-- Witness for C10: the run returns `previousResult` by identity and the
unselected key `extra` is still present with its value `true`. -/
theorem executeSelectionSet_no_pruning_witness :
    executeSelectionSet 3 qA (.ref 0) (.ref 1) testCtx stC10 =
      .ok (.ref 1, stC10Final) ∧
    getBinding stC10.heap 1 "extra" = some (.bool true) ∧
    getProp stC10Final.heap (.ref 1) "extra" = .bool true :=
  ⟨rfl, rfl,
   executeSelectionSet_no_pruning 3 qA (.ref 0) (.ref 1) testCtx stC10 (.ref 1)
     stC10Final 1 "extra" (.bool true) rfl rfl rfl rfl⟩

end GraphQLAnywhere
